import Mathlib

/-!
Ledger storage: B-tree iterator, journal and page storage.

Shallow embedding of `storage/impl/btree/btree_iterator.cc` (constructor, `Next`,
`Done`, `operator*`) together with the `TreeNode` interface it traverses.
Machine `int` indices are modelled as `Int`; the two `while` loops take a fuel
argument and report `Run.out_of_fuel` when it is used up.
-/

namespace storage

/-- Modelled from the spec: the unified status enum of the storage layer (`Status`, declared in
`storage/public/types.h`). -/
inductive Status where
  | OK
  | NOT_FOUND
  | NO_SUCH_CHILD
  | ILLEGAL_STATE
  | IO_ERROR
  | FORMAT_ERROR
  | INTERNAL_ERROR
deriving DecidableEq, Repr

/-- Modelled from the spec: the sync hint `KeyPriority` attached to every entry. -/
inductive KeyPriority where
  | EAGER
  | LAZY
deriving DecidableEq, Repr

/-- Modelled from the spec: the `Entry` triple `(key, value_id, priority)` declared in
`storage/public/types.h`. Keys are byte strings compared lexicographically. -/
structure Entry where
  key : String
  value_id : String
  priority : KeyPriority
deriving DecidableEq, Repr

instance : Inhabited Entry := ⟨⟨"", "", KeyPriority.EAGER⟩⟩

/-- Modelled from the spec: `TreeNode` (`storage/impl/store/tree_node.h`), an immutable node
holding entries `e₀ … eₙ₋₁` and `n+1` child slots, each empty (`none`) or another node.
`child0` is slot `0`; the `i`-th pair of `rest` holds entry `i` and slot `i+1`, so the
slot count is `n+1` by construction. -/
inductive TreeNode where
  | mk (child0 : Option TreeNode) (rest : List (Entry × Option TreeNode)) : TreeNode

/-- Entries `e₀ … eₙ₋₁` of a node. -/
def TreeNode.entries : TreeNode → List Entry
  | .mk _ rest => rest.map Prod.fst

/-- Child slots `0 … n` of a node. -/
def TreeNode.children : TreeNode → List (Option TreeNode)
  | .mk child0 rest => child0 :: rest.map Prod.snd

/-- Modelled from the spec: `TreeNode::GetKeyCount`, the number `n` of entries. -/
def TreeNode.GetKeyCount (t : TreeNode) : Int :=
  (t.entries.length : Int)

/-- Modelled from the spec: `TreeNode::GetEntry(i)` for `0 ≤ i < n`; `none` stands for a
violated index precondition. -/
def TreeNode.GetEntry (t : TreeNode) (index : Int) : Option Entry :=
  if 0 ≤ index ∧ index < t.GetKeyCount then t.entries[index.toNat]? else none

/-- Modelled from the spec: `TreeNode::GetChild(i)` for `0 ≤ i ≤ n`; the status is
`NO_SUCH_CHILD` when the slot is empty, and the outer `none` stands for a violated index
precondition. Trees are finite values here, so a child that is referenced is always found. -/
def TreeNode.GetChild (t : TreeNode) (index : Int) : Option (Status × Option TreeNode) :=
  if 0 ≤ index ∧ index ≤ t.GetKeyCount then
    match t.children[index.toNat]? with
    | some (some child) => some (Status.OK, some child)
    | _ => some (Status.NO_SUCH_CHILD, none)
  else none

/-- Result of running a piece of the iterator: a value, a failed precondition check
(`FTL_DCHECK` or an index precondition of `TreeNode`), or exhausted loop fuel. -/
inductive Run (α : Type) where
  | ok (a : α)
  | dcheck_failed
  | out_of_fuel
deriving DecidableEq, Repr

/-- Modelled from the spec: `BTreeIterator::Position` (declared in `btree_iterator.h`), a
frame `(node, entry_index, child_index)` of the iterator stack. -/
structure Position where
  node : TreeNode
  entry_index : Int
  child_index : Int

/-- State of `BTreeIterator`: the members `stack_` (top first) and `current_entry_`. -/
structure BTreeIterator where
  stack_ : List Position
  current_entry_ : Entry

/-- Method `BTreeIterator::Done`: the stack is empty. -/
def BTreeIterator.Done (it : BTreeIterator) : Bool :=
  it.stack_.isEmpty

/-- Method `BTreeIterator::operator*`: the current entry. -/
def BTreeIterator.deref (it : BTreeIterator) : Entry :=
  it.current_entry_

/-- The `while (!stack_.empty())` loop of `BTreeIterator::Next`, one iteration per unit of
fuel; the state is `stack_`, `current_entry_` and the local `direction_up`. -/
def BTreeIterator.NextLoop : Nat → List Position → Entry → Bool → Run BTreeIterator
  | 0, _, _, _ => Run.out_of_fuel
  | _ + 1, [], cur, _ => Run.ok ⟨[], cur⟩
  | fuel + 1, pos :: below, cur, true =>
    let entry_index := pos.entry_index + 1
    if entry_index < pos.node.GetKeyCount then
      -- [1] there is a next entry in this node
      match pos.node.GetEntry entry_index with
      | some entry => Run.ok ⟨⟨pos.node, entry_index, pos.child_index⟩ :: below, entry⟩
      | none => Run.dcheck_failed
    else
      -- [2] end of this node: pop and keep moving up
      BTreeIterator.NextLoop fuel below cur true
  | fuel + 1, pos :: below, cur, false =>
    let child_index := pos.child_index + 1
    if child_index < pos.node.GetKeyCount + 1 then
      match pos.node.GetChild child_index with
      | none => Run.dcheck_failed
      | some (status, next_child) =>
        if status = Status.OK then
          match next_child with
          | some child =>
            -- [3] the child is not empty: push it
            BTreeIterator.NextLoop fuel
              (⟨child, -1, -1⟩ :: ⟨pos.node, pos.entry_index, child_index⟩ :: below) cur false
          | none => Run.dcheck_failed
        else
          -- [4] the child is empty: reverse direction
          BTreeIterator.NextLoop fuel (⟨pos.node, pos.entry_index, child_index⟩ :: below) cur true
    else
      -- [5] end of the child list: pop and go up
      BTreeIterator.NextLoop fuel below cur true

/-- Method `BTreeIterator::Next`: the `FTL_DCHECK(!Done())` followed by the loop, started with
`direction_up = false`. -/
def BTreeIterator.Next (fuel : Nat) (it : BTreeIterator) : Run BTreeIterator :=
  if it.Done then Run.dcheck_failed
  else BTreeIterator.NextLoop fuel it.stack_ it.current_entry_ false

/-- The `while (current_node)` loop of the constructor: push `(node, -1, 0)` and follow
child `0` while `GetChild(0)` returns `OK`. -/
def BTreeIterator.InitLoop : Nat → Option TreeNode → List Position → Run (List Position)
  | 0, _, _ => Run.out_of_fuel
  | _ + 1, none, stack => Run.ok stack
  | fuel + 1, some current_node, stack =>
    match current_node.GetChild 0 with
    | none => Run.dcheck_failed
    | some (status, next_node) =>
      if status = Status.OK then
        BTreeIterator.InitLoop fuel next_node (⟨current_node, -1, 0⟩ :: stack)
      else
        Run.ok (⟨current_node, -1, 0⟩ :: stack)

/-- Constructor `BTreeIterator::BTreeIterator(root)`: the leftmost descent followed by one `Next`.
`current_entry_` starts as the default-constructed entry. -/
def BTreeIterator.new (fuel : Nat) (root : Option TreeNode) : Run BTreeIterator :=
  match BTreeIterator.InitLoop fuel root [] with
  | Run.ok stack => BTreeIterator.Next fuel ⟨stack, default⟩
  | Run.dcheck_failed => Run.dcheck_failed
  | Run.out_of_fuel => Run.out_of_fuel

/-- The entries an iterator yields when it is read and advanced until `Done`, as the
client loop `while (!it.Done()) { use(*it); it.Next(); }` does; at most `steps` entries. -/
def BTreeIterator.drain : Nat → Nat → BTreeIterator → Run (List Entry)
  | 0, _, _ => Run.out_of_fuel
  | steps + 1, fuel, it =>
    if it.Done then Run.ok []
    else
      match it.Next fuel with
      | Run.ok it' =>
        match BTreeIterator.drain steps fuel it' with
        | Run.ok rest => Run.ok (it.deref :: rest)
        | Run.dcheck_failed => Run.dcheck_failed
        | Run.out_of_fuel => Run.out_of_fuel
      | Run.dcheck_failed => Run.dcheck_failed
      | Run.out_of_fuel => Run.out_of_fuel

/-- The sequence of entries produced by a `BTreeIterator` built on `root`: the entry
current after construction, then the entry current after each `Next`, until `Done`. -/
def BTreeIterator.traverse (fuel : Nat) (root : Option TreeNode) : Run (List Entry) :=
  match BTreeIterator.new fuel root with
  | Run.ok it => BTreeIterator.drain fuel fuel it
  | Run.dcheck_failed => Run.dcheck_failed
  | Run.out_of_fuel => Run.out_of_fuel

/-- Method `Next` called `k` times in a row. -/
def BTreeIterator.NextN (fuel : Nat) : Nat → BTreeIterator → Run BTreeIterator
  | 0, it => Run.ok it
  | k + 1, it =>
    match it.Next fuel with
    | Run.ok it' => BTreeIterator.NextN fuel k it'
    | Run.dcheck_failed => Run.dcheck_failed
    | Run.out_of_fuel => Run.out_of_fuel


/-! Reference traversals and measures on trees -/

mutual
/-- Reference recursive in-order traversal of a node:
`inorder(child 0) ++ [entry 0] ++ inorder(child 1) ++ [entry 1] ++ … ++ inorder(child n)`. -/
def TreeNode.inorder : TreeNode → List Entry
  | .mk child0 rest => inorderOpt child0 ++ inorderRest rest
/-- In-order traversal of a child slot; an empty slot contributes nothing. -/
def inorderOpt : Option TreeNode → List Entry
  | none => []
  | some t => t.inorder
/-- In-order traversal of the part of a node that follows child `0`. -/
def inorderRest : List (Entry × Option TreeNode) → List Entry
  | [] => []
  | (e, c) :: r => e :: (inorderOpt c ++ inorderRest r)
end

mutual
/-- All entries stored in the nodes reachable from a node: the node's own entries first,
then those of its children. -/
def TreeNode.allEntries : TreeNode → List Entry
  | .mk child0 rest => rest.map Prod.fst ++ (allEntriesOpt child0 ++ allEntriesRest rest)
/-- All entries reachable through a child slot. -/
def allEntriesOpt : Option TreeNode → List Entry
  | none => []
  | some t => t.allEntries
/-- All entries reachable through the child slots `1 … n`. -/
def allEntriesRest : List (Entry × Option TreeNode) → List Entry
  | [] => []
  | (_, c) :: r => allEntriesOpt c ++ allEntriesRest r
end

/-- Number of entries a tree holds. -/
def TreeNode.entryCount (t : TreeNode) : Nat :=
  t.allEntries.length

mutual
/-- Number of nodes reachable from a node, itself included. -/
def TreeNode.nodeCount : TreeNode → Nat
  | .mk child0 rest => 1 + nodeCountOpt child0 + nodeCountRest rest
/-- Number of nodes reachable through a child slot. -/
def nodeCountOpt : Option TreeNode → Nat
  | none => 0
  | some t => t.nodeCount
/-- Number of nodes reachable through the child slots `1 … n`. -/
def nodeCountRest : List (Entry × Option TreeNode) → Nat
  | [] => 0
  | (_, c) :: r => nodeCountOpt c + nodeCountRest r
end

/-- Keys of all entries under a child slot. -/
def keysUnder (c : Option TreeNode) : List String :=
  (allEntriesOpt c).map Entry.key

/-- The key bounds of the `TreeNode` invariant for one node, read left to right: every key
under the current slot lies strictly above the previous entry (`lo`, `none` for `−∞`) and
strictly below the next entry (`+∞` after the last one). -/
def slotsBounded : Option String → Option TreeNode → List (Entry × Option TreeNode) → Prop
  | lo, c, [] => ∀ k ∈ keysUnder c, ∀ l, lo = some l → l < k
  | lo, c, (e, c') :: r =>
    (∀ k ∈ keysUnder c, (∀ l, lo = some l → l < k) ∧ k < e.key) ∧ slotsBounded (some e.key) c' r

mutual
/-- The `TreeNode` invariant, for a node and every node below it: entries strictly
key-ordered, and all keys under a non-empty child `i` strictly between entry `i-1` and
entry `i`. -/
def TreeNode.Invariant : TreeNode → Prop
  | .mk child0 rest =>
    List.Pairwise (fun a b : Entry => a.key < b.key) (rest.map Prod.fst) ∧
      slotsBounded none child0 rest ∧ InvariantOpt child0 ∧ InvariantRest rest
/-- The invariant for the node in a child slot, if there is one. -/
def InvariantOpt : Option TreeNode → Prop
  | none => True
  | some t => t.Invariant
/-- The invariant for the nodes in the child slots `1 … n`. -/
def InvariantRest : List (Entry × Option TreeNode) → Prop
  | [] => True
  | (_, c) :: r => InvariantOpt c ∧ InvariantRest r
end

/-- The node where the constructor's leftmost descent stops: the first node on the
child-0 path whose child `0` is empty. -/
def TreeNode.descentStop : TreeNode → TreeNode
  | .mk (some c) _ => c.descentStop
  | .mk none rest => .mk none rest

/-- The stack the constructor builds before its call of `Next`: the child-0 path, every
frame `(node, -1, 0)`, the node where the descent stops on top. -/
def TreeNode.initStack : TreeNode → List Position
  | .mk (some c) rest => c.initStack ++ [⟨.mk (some c) rest, -1, 0⟩]
  | .mk none rest => [⟨.mk none rest, -1, 0⟩]

/-- Order in which the slots `1 … n` of the node on top of the initial stack are visited:
each child before the entry on its left. -/
def shiftedRest : List (Entry × Option TreeNode) → List Entry
  | [] => []
  | (e, c) :: r => inorderOpt c ++ e :: shiftedRest r

/-- The order in which the iterator visits a tree: in-order everywhere, except that in the
node where the leftmost descent stops child `i+1` is visited before entry `i`. -/
def TreeNode.yieldOrder : TreeNode → List Entry
  | .mk (some c) rest => c.yieldOrder ++ inorderRest rest
  | .mk none rest => shiftedRest rest

/-- Entries still to come from slots `cs` and entries `es` of a frame whose next move is
to read an entry (direction up). -/
def pendingUp : List (Option TreeNode) → List Entry → List Entry
  | _, [] => []
  | [], e :: _ => [e]
  | c :: cs, e :: es => e :: (inorderOpt c ++ pendingUp cs es)

/-- Entries still to come from slots `cs` and entries `es` of a frame whose next move is
to open a child (direction down). -/
def pendingDown : List (Option TreeNode) → List Entry → List Entry
  | [], _ => []
  | c :: cs, es => inorderOpt c ++ pendingUp cs es

/-- Entries a frame still yields when it is resumed in direction up. -/
def Position.up (p : Position) : List Entry :=
  pendingUp (p.node.children.drop (p.child_index + 1).toNat)
    (p.node.entries.drop (p.entry_index + 1).toNat)

/-- Entries a frame still yields when it is resumed in direction down. -/
def Position.down (p : Position) : List Entry :=
  pendingDown (p.node.children.drop (p.child_index + 1).toNat)
    (p.node.entries.drop (p.entry_index + 1).toNat)

/-- Entries a loop state `(stack, direction_up)` still yields. -/
def stackPending : List Position → Bool → List Entry
  | [], _ => []
  | p :: below, false => p.down ++ below.flatMap Position.up
  | p :: below, true => p.up ++ below.flatMap Position.up

/-- Both indices of a frame are at least `-1`. -/
def Position.valid (p : Position) : Prop :=
  -1 ≤ p.entry_index ∧ -1 ≤ p.child_index

/-- Number of nodes reachable through a list of child slots. -/
def slotNodes (cs : List (Option TreeNode)) : Nat :=
  (cs.map nodeCountOpt).sum

/-- Loop iterations a frame can still cause: one for leaving it, two per node below the
children it has not opened yet. -/
def Position.weight (p : Position) : Nat :=
  1 + 2 * slotNodes (p.node.children.drop (p.child_index + 1).toNat)

/-- Sum of the weights of the frames of a stack. -/
def stackWeight (s : List Position) : Nat :=
  (s.map Position.weight).sum

/-- Fuel that is enough for the constructor, every `Next` and the whole traversal of a
tree. -/
def TreeNode.fuelBound (t : TreeNode) : Nat :=
  2 * t.nodeCount + t.entryCount + 2

/-- Entry with key `"a"`. -/
def entryA : Entry := ⟨"a", "", KeyPriority.EAGER⟩

/-- Entry with key `"b"`. -/
def entryB : Entry := ⟨"b", "", KeyPriority.EAGER⟩

/-- Entry with key `"c"`. -/
def entryC : Entry := ⟨"c", "", KeyPriority.EAGER⟩

/-- Entry with key `"d"`. -/
def entryD : Entry := ⟨"d", "", KeyPriority.EAGER⟩

/-- A root holding entry `a` with an empty child `0` and, in child slot `1`, a node
holding entry `b`. -/
def sparseTree : TreeNode :=
  .mk none [(entryA, some (.mk none [(entryB, none)]))]

/-- A root holding entries `b` and `c`, with a leaf holding `a` in slot `0`, an empty
slot `1` and a leaf holding `d` in slot `2`. -/
def leafyTree : TreeNode :=
  .mk (some (.mk none [(entryA, none)])) [(entryB, none), (entryC, some (.mk none [(entryD, none)]))]

/-! Page storage, commits, watchers and journals

`page_storage_impl.cc`, `commit_impl.cc` and the journal implementation are exercised by
`page_storage_unittest.cc` but are not part of the source at hand; their behaviour is
modelled from the specification. `FakeCommitWatcher` is translated from the unit test. -/

/-- Identifier of a commit. -/
abbrev CommitId := String

/-- Identifier of an object. -/
abbrev ObjectId := String

/-- Identity of a registered watcher object (its address). -/
abbrev WatcherId := Nat

/-- Modelled from the spec: the provenance `ChangeSource` of a commit handed to watchers. -/
inductive ChangeSource where
  | LOCAL
  | SYNC
deriving DecidableEq, Repr

/-- Modelled from the spec: the two journal variants `JournalType`. -/
inductive JournalType where
  | EXPLICIT
  | IMPLICIT
deriving DecidableEq, Repr

/-- Modelled from the spec: the commit record `(id, parent_ids, root_tree_id, generation)` of
`commit_impl.cc`; the timestamp plays no role here and is left out. -/
structure Commit where
  id : CommitId
  parent_ids : List CommitId
  root_tree_id : ObjectId
  generation : Nat
deriving DecidableEq, Repr

/-- One call of `CommitWatcher::OnNewCommit` on the watcher `watcher`. -/
structure Notification where
  watcher : WatcherId
  commit_id : CommitId
  source : ChangeSource
deriving DecidableEq, Repr

/-- The test double `FakeCommitWatcher` of `page_storage_unittest.cc`: `commit_count`,
`last_commit_id`, `last_source`. -/
structure FakeCommitWatcher where
  commit_count : Int
  last_commit_id : CommitId
  last_source : ChangeSource
deriving DecidableEq, Repr

/-- A freshly constructed `FakeCommitWatcher`: `commit_count = 0`; the other two members
are not initialised by the test and get arbitrary values here. -/
def FakeCommitWatcher.fresh : FakeCommitWatcher :=
  ⟨0, "", ChangeSource.LOCAL⟩

/-- Method `FakeCommitWatcher::OnNewCommit`: count the call and remember its arguments. -/
def FakeCommitWatcher.OnNewCommit (w : FakeCommitWatcher) (commit_id : CommitId)
    (source : ChangeSource) : FakeCommitWatcher :=
  ⟨w.commit_count + 1, commit_id, source⟩

/-- Modelled from the spec: the state of `PageStorageImpl` (`page_storage_impl.cc`): the known
commits in insertion order, the head set, the unsynced set, the registered watchers in
registration order, and the trace of all watcher calls made so far. -/
structure PageStorage where
  commits : List Commit
  heads : List CommitId
  unsynced : List CommitId
  watchers : List WatcherId
  delivered : List Notification
deriving DecidableEq, Repr

/-- Ids of the known commits. -/
def PageStorage.ids (s : PageStorage) : List CommitId :=
  s.commits.map Commit.id

/-- Modelled from the spec: the initial commit `Init` synthesises (generation 0, empty root
tree, no parents). -/
def initialCommit : Commit :=
  ⟨"", [], "", 0⟩

/-- Modelled from the spec: `PageStorage::Init` on an empty directory: the initial commit is
the only commit and the sole head, nothing is unsynced, nobody watches. -/
def PageStorage.Init : PageStorage :=
  ⟨[initialCommit], [initialCommit.id], [], [], []⟩

/-- Modelled from the spec: the atomic registration step of a new commit: write it, remove
its parents from the head set and add its id unless a known commit lists it as a parent,
mark it unsynced when it is local, and call every registered watcher, in registration
order, with the commit and its provenance. -/
def PageStorage.Insert (s : PageStorage) (c : Commit) (source : ChangeSource) : PageStorage :=
  ⟨s.commits ++ [c],
   s.heads.filter (fun h => decide (h ∉ c.parent_ids))
    ++ (if s.commits.any (fun d => decide (c.id ∈ d.parent_ids)) then [] else [c.id]),
   if source = ChangeSource.LOCAL then s.unsynced ++ [c.id] else s.unsynced,
   s.watchers,
   s.delivered ++ s.watchers.map (fun w => ⟨w, c.id, source⟩)⟩

/-- Modelled from the spec: commit ingestion shared by `AddCommitFromLocal` and
`AddCommitFromSync`. A commit whose id is known is stored already and ingesting it again
succeeds without side effect; a commit with an unknown parent is refused with `NOT_FOUND`;
otherwise the commit is registered. -/
def PageStorage.AddCommit (s : PageStorage) (c : Commit) (source : ChangeSource) :
    Status × PageStorage :=
  if c.id ∈ s.ids then (Status.OK, s)
  else if c.parent_ids.all (fun p => decide (p ∈ s.ids)) then (Status.OK, s.Insert c source)
  else (Status.NOT_FOUND, s)

/-- Modelled from the spec: `PageStorage::AddCommitFromLocal`. -/
def PageStorage.AddCommitFromLocal (s : PageStorage) (c : Commit) : Status × PageStorage :=
  s.AddCommit c ChangeSource.LOCAL

/-- Modelled from the spec: `PageStorage::AddCommitFromSync(id, bytes)`, the bytes given as the
commit they parse to (its id being the recomputed one). -/
def PageStorage.AddCommitFromSync (s : PageStorage) (c : Commit) : Status × PageStorage :=
  s.AddCommit c ChangeSource.SYNC

/-- Modelled from the spec: `PageStorage::MarkCommitSynced` removes the unsynced marker. -/
def PageStorage.MarkCommitSynced (s : PageStorage) (id : CommitId) : Status × PageStorage :=
  (Status.OK, ⟨s.commits, s.heads, s.unsynced.filter (fun u => decide (u ≠ id)), s.watchers,
    s.delivered⟩)

/-- Modelled from the spec: `PageStorage::AddCommitWatcher`; a watcher is registered at most
once and new watchers go to the end of the registration order. -/
def PageStorage.AddCommitWatcher (s : PageStorage) (w : WatcherId) : PageStorage :=
  if w ∈ s.watchers then s
  else ⟨s.commits, s.heads, s.unsynced, s.watchers ++ [w], s.delivered⟩

/-- Modelled from the spec: `PageStorage::RemoveCommitWatcher`, effective immediately. -/
def PageStorage.RemoveCommitWatcher (s : PageStorage) (w : WatcherId) : PageStorage :=
  ⟨s.commits, s.heads, s.unsynced, s.watchers.filter (fun v => decide (v ≠ w)), s.delivered⟩

/-- Modelled from the spec: `PageStorage::GetHeadCommitIds`. -/
def PageStorage.GetHeadCommitIds (s : PageStorage) : Status × List CommitId :=
  (Status.OK, s.heads)

/-- Modelled from the spec: `PageStorage::GetUnsyncedCommits`, the known commits carrying an
unsynced marker, parents first. -/
def PageStorage.GetUnsyncedCommits (s : PageStorage) : List Commit :=
  s.commits.filter (fun c => decide (c.id ∈ s.unsynced))

/-- The insertion of `c` takes effect in state `s`: its id is new and its parents are
known. -/
def PageStorage.Accepts (s : PageStorage) (c : Commit) : Prop :=
  c.id ∉ s.ids ∧ ∀ p ∈ c.parent_ids, p ∈ s.ids

instance (s : PageStorage) (c : Commit) : Decidable (s.Accepts c) := by
  unfold PageStorage.Accepts
  infer_instance

/-- What a `FakeCommitWatcher` registered under the identity `w` has recorded after the
watcher calls of a trace. -/
def FakeCommitWatcher.after (w : WatcherId) (trace : List Notification) : FakeCommitWatcher :=
  (trace.filter (fun n => decide (n.watcher = w))).foldl
    (fun obj n => obj.OnNewCommit n.commit_id n.source) FakeCommitWatcher.fresh

/-- The operations on a page that change its state. -/
inductive Op where
  | addLocal (c : Commit)
  | addSync (c : Commit)
  | markSynced (id : CommitId)
  | addWatcher (w : WatcherId)
  | removeWatcher (w : WatcherId)
deriving DecidableEq, Repr

/-- State after one operation. -/
def PageStorage.step (s : PageStorage) : Op → PageStorage
  | Op.addLocal c => (s.AddCommitFromLocal c).2
  | Op.addSync c => (s.AddCommitFromSync c).2
  | Op.markSynced id => (s.MarkCommitSynced id).2
  | Op.addWatcher w => s.AddCommitWatcher w
  | Op.removeWatcher w => s.RemoveCommitWatcher w

/-- State of a fresh page after a sequence of operations. -/
def PageStorage.run (ops : List Op) : PageStorage :=
  ops.foldl PageStorage.step PageStorage.Init

/-- States of a journal. -/
inductive JournalState where
  | OPEN
  | COMMITTED
  | ROLLED_BACK
deriving DecidableEq, Repr

/-- A staged operation on one key. -/
inductive PendingOp where
  | Put (value_id : ObjectId) (priority : KeyPriority)
  | Delete
deriving DecidableEq, Repr

/-- Modelled from the spec: a journal: its variant, its base commit(s), the pending map from
keys to staged operations, and its state. -/
structure Journal where
  journal_type : JournalType
  bases : List CommitId
  pending : List (String × PendingOp)
  state : JournalState
deriving DecidableEq, Repr

/-- Record an operation for a key in a pending map, overwriting an earlier one. -/
def setPending (pending : List (String × PendingOp)) (key : String) (op : PendingOp) :
    List (String × PendingOp) :=
  pending.filter (fun p => decide (p.1 ≠ key)) ++ [(key, op)]

/-- Modelled from the spec: `PageStorage::StartCommit`: an open journal on one base. -/
def PageStorage.StartCommit (_s : PageStorage) (base : CommitId) (journal_type : JournalType) :
    Status × Journal :=
  (Status.OK, ⟨journal_type, [base], [], JournalState.OPEN⟩)

/-- Modelled from the spec: `Journal::Put` records or overwrites a pending put; outside the
state `OPEN` it fails with `ILLEGAL_STATE`. -/
def Journal.Put (j : Journal) (key : String) (value_id : ObjectId) (priority : KeyPriority) :
    Status × Journal :=
  if j.state = JournalState.OPEN then
    (Status.OK, ⟨j.journal_type, j.bases, setPending j.pending key (PendingOp.Put value_id priority),
      j.state⟩)
  else (Status.ILLEGAL_STATE, j)

/-- Modelled from the spec: `Journal::Delete` records or overwrites a pending delete; deleting
an absent key is not an error. -/
def Journal.Delete (j : Journal) (key : String) : Status × Journal :=
  if j.state = JournalState.OPEN then
    (Status.OK, ⟨j.journal_type, j.bases, setPending j.pending key PendingOp.Delete, j.state⟩)
  else (Status.ILLEGAL_STATE, j)

/-- Modelled from the spec: `Journal::Rollback`: from `OPEN` go to `ROLLED_BACK` and discard the
staged operations; from any other state fail with `ILLEGAL_STATE`. -/
def Journal.Rollback (j : Journal) : Status × Journal :=
  if j.state = JournalState.OPEN then
    (Status.OK, ⟨j.journal_type, j.bases, [], JournalState.ROLLED_BACK⟩)
  else (Status.ILLEGAL_STATE, j)

/-- Modelled from the spec: `Journal::Commit`, returning what the callback receives, the
journal and the page afterwards. Outside `OPEN` the callback gets `ILLEGAL_STATE`. An
implicit journal on one base with an empty pending map emits no commit and reports the
base id. Otherwise the commit `sealed j` (steps 1 to 4: the new tree, its id, the commit
record; not modelled and taken as a parameter) is registered as a local commit; on success
the journal becomes `COMMITTED`, on failure it stays `OPEN`. -/
def Journal.Commit (sealed : Journal → Commit) (j : Journal) (s : PageStorage) :
    (Status × Option CommitId) × Journal × PageStorage :=
  if j.state = JournalState.OPEN then
    match j.journal_type, j.pending, j.bases with
    | JournalType.IMPLICIT, [], [base] =>
      ((Status.OK, some base), ⟨j.journal_type, j.bases, j.pending, JournalState.COMMITTED⟩, s)
    | _, _, _ =>
      match s.AddCommitFromLocal (sealed j) with
      | (Status.OK, s') =>
        ((Status.OK, some (sealed j).id),
          ⟨j.journal_type, j.bases, j.pending, JournalState.COMMITTED⟩, s')
      | (status, s') => ((status, none), j, s')
  else ((Status.ILLEGAL_STATE, none), j, s)

/-- A finishing call on a journal. -/
inductive JournalCall where
  | Commit
  | Rollback
deriving DecidableEq, Repr

/-- One finishing call: the status it reports, the journal and the page afterwards. -/
def Journal.call (sealed : Journal → storage.Commit) (j : Journal) (s : PageStorage) :
    JournalCall → Status × Journal × PageStorage
  | JournalCall.Commit => ((j.Commit sealed s).1.1, (j.Commit sealed s).2.1, (j.Commit sealed s).2.2)
  | JournalCall.Rollback => (j.Rollback.1, j.Rollback.2, s)

/-- A sequence of finishing calls: the statuses they report, in order, and the journal
and the page at the end. -/
def Journal.calls (sealed : Journal → storage.Commit) :
    List JournalCall → Journal → PageStorage → List Status × Journal × PageStorage
  | [], j, s => ([], j, s)
  | call :: later, j, s =>
    let r := j.call sealed s call
    let rs := Journal.calls sealed later r.2.1 r.2.2
    (r.1 :: rs.1, rs.2.1, rs.2.2)

/-- Invariant of the page states reachable from `Init`: parents of known commits are
known, the heads are exactly the known commits without a known child, there is a head,
known ids and registered watchers are free of duplicates, and watcher calls and unsynced
markers concern known commits only. -/
def PageStorage.Inv (s : PageStorage) : Prop :=
  (∀ d ∈ s.commits, ∀ p ∈ d.parent_ids, p ∈ s.ids) ∧
  (∀ id, id ∈ s.heads ↔ id ∈ s.ids ∧ ∀ d ∈ s.commits, id ∉ d.parent_ids) ∧
  s.heads ≠ [] ∧
  s.ids.Nodup ∧
  s.watchers.Nodup ∧
  (∀ n ∈ s.delivered, n.commit_id ∈ s.ids) ∧
  (∀ id ∈ s.unsynced, id ∈ s.ids)

/-- An open explicit journal on the initial commit with one staged put. -/
def openJournal : Journal :=
  ⟨JournalType.EXPLICIT, [initialCommit.id], [("key0", PendingOp.Put "v0" KeyPriority.EAGER)],
    JournalState.OPEN⟩

/-- The journal `openJournal` after its commit. -/
def committedJournal : Journal :=
  ⟨JournalType.EXPLICIT, [initialCommit.id], [("key0", PendingOp.Put "v0" KeyPriority.EAGER)],
    JournalState.COMMITTED⟩

/-- A commit `A` on top of the initial commit. -/
def commitA : Commit :=
  ⟨"A", [initialCommit.id], "treeA", 1⟩

/-- A commit `B` on top of `A`. -/
def commitB : Commit :=
  ⟨"B", ["A"], "treeB", 2⟩

/-- A commit `C` on top of `B`. -/
def commitC : Commit :=
  ⟨"C", ["B"], "treeC", 3⟩

/-! Stack invariant of the iterator -/

/-- The frames of a stack (top first) form a path from `root`: the bottom frame holds
`root`, and every other frame holds the child that `GetChild` returns at the `child_index`
of the frame directly below it. -/
def stackPath (root : TreeNode) : List Position → Prop
  | [] => True
  | [p] => p.node = root
  | p :: q :: below =>
    q.node.GetChild q.child_index = some (Status.OK, some p.node) ∧ stackPath root (q :: below)

/-- When the iterator is not `Done`, the `entry_index` of the top frame is a valid index of
its node and the current entry is that node's entry at this index. -/
def BTreeIterator.topEntry (it : BTreeIterator) : Prop :=
  match it.stack_ with
  | [] => True
  | p :: _ =>
    0 ≤ p.entry_index ∧ p.entry_index < p.node.GetKeyCount ∧
      p.node.GetEntry p.entry_index = some it.current_entry_

/-- A root with no entry and an empty child `0`: the empty root tree of the initial
commit. -/
def emptyRoot : TreeNode :=
  .mk none []

/-! Lemmas about the iterator -/

theorem nodeCountRest_eq (rest : List (Entry × Option TreeNode)) :
    nodeCountRest rest = slotNodes (rest.map Prod.snd) := by
  induction rest with
  | nil => simp [nodeCountRest, slotNodes]
  | cons p r ih =>
    obtain ⟨e, c⟩ := p
    simp [nodeCountRest, slotNodes] at ih ⊢
    rw [ih]

theorem nodeCount_eq (t : TreeNode) : t.nodeCount = 1 + slotNodes t.children := by
  cases t with
  | mk c0 rest =>
    simp [TreeNode.nodeCount, TreeNode.children, nodeCountRest_eq, slotNodes]
    omega

theorem slotNodes_cons (c : Option TreeNode) (cs : List (Option TreeNode)) :
    slotNodes (c :: cs) = nodeCountOpt c + slotNodes cs := by
  simp [slotNodes]

theorem slotNodes_drop_succ_le (cs : List (Option TreeNode)) (i : Nat) :
    slotNodes (cs.drop (i + 1)) ≤ slotNodes (cs.drop i) := by
  induction cs generalizing i with
  | nil => simp
  | cons c cs ih =>
    cases i with
    | zero => simp [slotNodes_cons]
    | succ i => simpa using ih i

theorem slotNodes_drop_mono (cs : List (Option TreeNode)) {i j : Nat} (h : i ≤ j) :
    slotNodes (cs.drop j) ≤ slotNodes (cs.drop i) := by
  induction h with
  | refl => exact le_refl _
  | step _ ih => exact le_trans (slotNodes_drop_succ_le cs _) ih

theorem drop_eq_cons_of_getElem {α : Type} (l : List α) (i : Nat) (x : α) (h : l[i]? = some x) :
    l.drop i = x :: l.drop (i + 1) := by
  induction l generalizing i with
  | nil => simp at h
  | cons a l ih =>
    cases i with
    | zero => simp at h; simp [h]
    | succ i => simp at h; simpa using ih i h

theorem GetChild_ok {t : TreeNode} {i : Int} {st : Status} {c : TreeNode}
    (h : t.GetChild i = some (st, some c)) :
    0 ≤ i ∧ i ≤ t.GetKeyCount ∧ st = Status.OK ∧ t.children[i.toNat]? = some (some c) := by
  unfold TreeNode.GetChild at h
  split_ifs at h with hr
  split at h
  · next child hc =>
    simp at h
    exact ⟨hr.1, hr.2, h.1.symm, by rw [hc, h.2]⟩
  · simp at h

theorem GetChild_status {t : TreeNode} {i : Int} {st : Status} {o : Option TreeNode}
    (h : t.GetChild i = some (st, o)) :
    (st = Status.OK ∧ ∃ c, o = some c) ∨ (st = Status.NO_SUCH_CHILD ∧ o = none) := by
  unfold TreeNode.GetChild at h
  split_ifs at h with hr
  split at h
  · simp at h; left; exact ⟨h.1.symm, _, h.2.symm⟩
  · simp at h; right; exact ⟨h.1.symm, h.2.symm⟩

theorem weight_step_le (pos : Position) :
    Position.weight ⟨pos.node, pos.entry_index, pos.child_index + 1⟩ ≤ pos.weight := by
  unfold Position.weight
  have : (pos.child_index + 1).toNat ≤ (pos.child_index + 1 + 1).toNat := by omega
  have := slotNodes_drop_mono pos.node.children this
  simp only
  omega

theorem weight_push (pos : Position) (st : Status) (child : TreeNode)
    (h : pos.node.GetChild (pos.child_index + 1) = some (st, some child)) :
    Position.weight ⟨child, -1, -1⟩
      + Position.weight ⟨pos.node, pos.entry_index, pos.child_index + 1⟩ + 1 = pos.weight := by
  obtain ⟨h0, _, _, hc⟩ := GetChild_ok h
  unfold Position.weight
  simp only
  have e1 : (pos.child_index + 1 + 1).toNat = (pos.child_index + 1).toNat + 1 := by omega
  rw [drop_eq_cons_of_getElem _ _ _ hc, e1, slotNodes_cons]
  have := nodeCount_eq child
  simp [nodeCountOpt] at *
  omega

theorem NextLoop_terminates (fuel : Nat) :
    ∀ (stack : List Position) (cur : Entry) (dir : Bool),
      stackWeight stack + (if dir then 0 else 1) < fuel →
      BTreeIterator.NextLoop fuel stack cur dir ≠ Run.out_of_fuel ∧
      ∀ it, BTreeIterator.NextLoop fuel stack cur dir = Run.ok it →
        stackWeight it.stack_ ≤ stackWeight stack := by
  induction fuel with
  | zero => intro stack cur dir h; omega
  | succ f ih =>
    intro stack cur dir h
    cases stack with
    | nil =>
      simp [BTreeIterator.NextLoop]
    | cons pos below =>
      have hw : stackWeight (pos :: below) = pos.weight + stackWeight below := by
        simp [stackWeight]
      have hp : 1 ≤ pos.weight := by unfold Position.weight; omega
      cases dir with
      | true =>
        simp only [BTreeIterator.NextLoop]
        split_ifs with h1
        · split
          · refine ⟨by simp, ?_⟩
            intro it hit
            simp at hit
            subst hit
            simp [stackWeight, Position.weight]
          · simp
        · have := ih below cur true (by simp at h ⊢; omega)
          exact ⟨this.1, fun it hit => le_trans (this.2 it hit) (by omega)⟩
      | false =>
        simp only [BTreeIterator.NextLoop]
        split_ifs with h1
        · split
          · simp
          · next status next_child hg =>
            have hstep := weight_step_le pos
            split_ifs with hs
            · split
              · next child =>
                have hpush := weight_push pos status child hg
                have := ih (⟨child, -1, -1⟩ :: ⟨pos.node, pos.entry_index, pos.child_index + 1⟩ :: below)
                  cur false (by simp [stackWeight] at h hw ⊢; omega)
                refine ⟨this.1, fun it hit => le_trans (this.2 it hit) ?_⟩
                simp [stackWeight] at hw ⊢
                omega
              · simp
            · have := ih (⟨pos.node, pos.entry_index, pos.child_index + 1⟩ :: below) cur true
                (by simp [stackWeight] at h hw ⊢; omega)
              refine ⟨this.1, fun it hit => le_trans (this.2 it hit) ?_⟩
              simp [stackWeight] at hw ⊢
              omega
        · have := ih below cur true (by simp at h ⊢; omega)
          exact ⟨this.1, fun it hit => le_trans (this.2 it hit) (by omega)⟩

theorem pendingUp_cons (cs : List (Option TreeNode)) (e : Entry) (es : List Entry) :
    pendingUp cs (e :: es) = e :: pendingDown cs es := by
  cases cs <;> simp [pendingUp, pendingDown]

theorem stackPending_up (s : List Position) :
    stackPending s true = s.flatMap Position.up := by
  cases s <;> simp [stackPending]

theorem children_length (t : TreeNode) : t.children.length = t.entries.length + 1 := by
  cases t; simp [TreeNode.children, TreeNode.entries]

theorem GetEntry_of_lt (t : TreeNode) (i : Int) (h0 : 0 ≤ i) (h1 : i < t.GetKeyCount) :
    ∃ x, t.entries[i.toNat]? = some x ∧ t.GetEntry i = some x := by
  have hlt : i.toNat < t.entries.length := by
    unfold TreeNode.GetKeyCount at h1; omega
  refine ⟨t.entries[i.toNat], List.getElem?_eq_getElem hlt, ?_⟩
  unfold TreeNode.GetEntry
  rw [if_pos ⟨h0, h1⟩]
  exact List.getElem?_eq_getElem hlt

theorem GetChild_of_lt (t : TreeNode) (i : Int) (h0 : 0 ≤ i) (h1 : i < t.GetKeyCount + 1) :
    (∃ c, t.children[i.toNat]? = some (some c) ∧ t.GetChild i = some (Status.OK, some c)) ∨
    (t.children[i.toNat]? = some none ∧ t.GetChild i = some (Status.NO_SUCH_CHILD, none)) := by
  have hlt : i.toNat < t.children.length := by
    rw [children_length]; unfold TreeNode.GetKeyCount at h1; omega
  have hget : t.children[i.toNat]? = some t.children[i.toNat] := List.getElem?_eq_getElem hlt
  unfold TreeNode.GetChild
  rw [if_pos ⟨h0, by omega⟩]
  cases hc : t.children[i.toNat] with
  | none => right; rw [hget, hc]; simp
  | some c => left; exact ⟨c, by rw [hget, hc], by rw [hget, hc]⟩

theorem pendingDown_node (t : TreeNode) : pendingDown t.children t.entries = t.inorder := by
  cases t with
  | mk c0 rest =>
    have h : ∀ r : List (Entry × Option TreeNode),
        pendingUp (r.map Prod.snd) (r.map Prod.fst) = inorderRest r := by
      intro r
      induction r with
      | nil => simp [pendingUp, inorderRest]
      | cons p r ih =>
        obtain ⟨e, c⟩ := p
        simp [pendingUp, inorderRest, ih]
    simp [TreeNode.children, TreeNode.entries, pendingDown, TreeNode.inorder, h]

theorem NextLoop_correct (fuel : Nat) :
    ∀ (stack : List Position) (cur : Entry) (dir : Bool),
      (∀ p ∈ stack, p.valid) →
      BTreeIterator.NextLoop fuel stack cur dir = Run.out_of_fuel ∨
      (stackPending stack dir = [] ∧
        BTreeIterator.NextLoop fuel stack cur dir = Run.ok ⟨[], cur⟩) ∨
      (∃ it, BTreeIterator.NextLoop fuel stack cur dir = Run.ok it ∧ it.stack_ ≠ [] ∧
        (∀ p ∈ it.stack_, p.valid) ∧
        stackPending stack dir = it.current_entry_ :: stackPending it.stack_ false) := by
  induction fuel with
  | zero => intro stack cur dir _; left; rfl
  | succ f ih =>
    intro stack cur dir hv
    cases stack with
    | nil => right; left; simp [BTreeIterator.NextLoop, stackPending]
    | cons pos below =>
      have hpos : pos.valid := hv pos (List.mem_cons_self _ _)
      have hbelow : ∀ p ∈ below, p.valid := fun p hp => hv p (List.mem_cons_of_mem _ hp)
      cases dir with
      | true =>
        by_cases h1 : pos.entry_index + 1 < pos.node.GetKeyCount
        · obtain ⟨x, hx, hget⟩ := GetEntry_of_lt pos.node (pos.entry_index + 1)
            (by have := hpos.1; omega) h1
          right; right
          refine ⟨⟨⟨pos.node, pos.entry_index + 1, pos.child_index⟩ :: below, x⟩, ?_, by simp, ?_, ?_⟩
          · simp only [BTreeIterator.NextLoop, h1, if_true, hget]
          · intro p hp
            rcases List.mem_cons.1 hp with rfl | hp
            · exact ⟨by have := hpos.1; simp only; omega, hpos.2⟩
            · exact hbelow p hp
          · have e1 : (pos.entry_index + 1 + 1).toNat = (pos.entry_index + 1).toNat + 1 := by
              have := hpos.1; omega
            simp only [stackPending, Position.up, Position.down]
            rw [drop_eq_cons_of_getElem _ _ _ hx, pendingUp_cons, e1]
            simp
        · have hrun : BTreeIterator.NextLoop (f + 1) (pos :: below) cur true
              = BTreeIterator.NextLoop f below cur true := by
            simp only [BTreeIterator.NextLoop, h1, if_false]
          have hdrop : pos.node.entries.drop (pos.entry_index + 1).toNat = [] := by
            apply List.drop_eq_nil_of_le
            unfold TreeNode.GetKeyCount at h1; omega
          have hpend : stackPending (pos :: below) true = stackPending below true := by
            rw [stackPending_up below]
            simp [stackPending, Position.up, hdrop, pendingUp]
          rw [hrun, hpend]
          exact ih below cur true hbelow
      | false =>
        by_cases h1 : pos.child_index + 1 < pos.node.GetKeyCount + 1
        · have hv' : ∀ p ∈ ⟨pos.node, pos.entry_index, pos.child_index + 1⟩ :: below, p.valid := by
            intro p hp
            rcases List.mem_cons.1 hp with rfl | hp
            · exact ⟨hpos.1, by have := hpos.2; simp only; omega⟩
            · exact hbelow p hp
          have e1 : (pos.child_index + 1 + 1).toNat = (pos.child_index + 1).toNat + 1 := by
            have := hpos.2; omega
          rcases GetChild_of_lt pos.node (pos.child_index + 1) (by have := hpos.2; omega) h1 with
            ⟨c, hc, hget⟩ | ⟨hc, hget⟩
          · have hrun : BTreeIterator.NextLoop (f + 1) (pos :: below) cur false
                = BTreeIterator.NextLoop f
                  (⟨c, -1, -1⟩ :: ⟨pos.node, pos.entry_index, pos.child_index + 1⟩ :: below)
                  cur false := by
              simp only [BTreeIterator.NextLoop, h1, if_true, hget]
            have hpend : stackPending (pos :: below) false
                = stackPending
                  (⟨c, -1, -1⟩ :: ⟨pos.node, pos.entry_index, pos.child_index + 1⟩ :: below)
                  false := by
              simp only [stackPending, Position.up, Position.down]
              rw [drop_eq_cons_of_getElem _ _ _ hc]
              have z : ((-1 : Int) + 1).toNat = 0 := by decide
              simp only [z, List.drop_zero, pendingDown_node, List.flatMap_cons, Position.up, e1]
              simp [pendingDown, inorderOpt]
            rw [hrun, hpend]
            apply ih
            intro p hp
            rcases List.mem_cons.1 hp with rfl | hp
            · exact ⟨le_refl _, le_refl _⟩
            · exact hv' p hp
          · have hrun : BTreeIterator.NextLoop (f + 1) (pos :: below) cur false
                = BTreeIterator.NextLoop f
                  (⟨pos.node, pos.entry_index, pos.child_index + 1⟩ :: below) cur true := by
              simp only [BTreeIterator.NextLoop, h1, if_true, hget]
              simp
            have hpend : stackPending (pos :: below) false
                = stackPending (⟨pos.node, pos.entry_index, pos.child_index + 1⟩ :: below)
                  true := by
              simp only [stackPending, Position.up, Position.down]
              rw [drop_eq_cons_of_getElem _ _ _ hc]
              simp [pendingDown, inorderOpt, e1]
            rw [hrun, hpend]
            exact ih _ cur true hv'
        · have hrun : BTreeIterator.NextLoop (f + 1) (pos :: below) cur false
              = BTreeIterator.NextLoop f below cur true := by
            simp only [BTreeIterator.NextLoop, h1, if_false]
          have hdrop : pos.node.children.drop (pos.child_index + 1).toNat = [] := by
            apply List.drop_eq_nil_of_le
            rw [children_length]
            unfold TreeNode.GetKeyCount at h1; omega
          have hpend : stackPending (pos :: below) false = stackPending below true := by
            rw [stackPending_up below]
            simp [stackPending, Position.down, hdrop, pendingDown]
          rw [hrun, hpend]
          exact ih below cur true hbelow

theorem TreeNode.leftInduction {P : TreeNode → Prop}
    (hnone : ∀ rest, P (.mk none rest))
    (hsome : ∀ c rest, P c → P (.mk (some c) rest)) : ∀ t, P t :=
  @TreeNode.rec P (fun o => ∀ c, o = some c → P c) (fun _ => True) (fun _ => True)
    (fun c0 rest h2 _ => by
      cases c0 with
      | none => exact hnone rest
      | some c => exact hsome c rest (h2 c rfl))
    (by intro c h; cases h)
    (fun val h c hc => by cases hc; exact h)
    trivial (fun _ _ _ _ => trivial) (fun _ _ _ => trivial)

theorem pendingUp_rest (r : List (Entry × Option TreeNode)) :
    pendingUp (r.map Prod.snd) (r.map Prod.fst) = inorderRest r := by
  induction r with
  | nil => simp [pendingUp, inorderRest]
  | cons p r ih =>
    obtain ⟨e, c⟩ := p
    simp [pendingUp, inorderRest, ih]

theorem pendingDown_rest (r : List (Entry × Option TreeNode)) :
    pendingDown (r.map Prod.snd) (r.map Prod.fst) = shiftedRest r := by
  induction r with
  | nil => simp [pendingDown, shiftedRest]
  | cons p r ih =>
    obtain ⟨e, c⟩ := p
    have hd : ∀ (c : Option TreeNode) cs es,
        pendingDown (c :: cs) es = inorderOpt c ++ pendingUp cs es := fun _ _ _ => rfl
    rw [List.map_cons, List.map_cons, hd, pendingUp_cons, ih, shiftedRest]

theorem initStack_pending (t : TreeNode) :
    ∀ below, stackPending (t.initStack ++ below) false
      = t.yieldOrder ++ below.flatMap Position.up := by
  induction t using TreeNode.leftInduction with
  | hnone rest =>
    intro below
    simp [TreeNode.initStack, stackPending, Position.down, TreeNode.children,
      TreeNode.entries, TreeNode.yieldOrder, pendingDown_rest]
  | hsome c rest ih =>
    intro below
    simp only [TreeNode.initStack, List.append_assoc, ih, TreeNode.yieldOrder]
    simp [Position.up, TreeNode.children, TreeNode.entries, pendingUp_rest]

theorem initStack_valid (t : TreeNode) : ∀ p ∈ t.initStack, p.valid := by
  induction t using TreeNode.leftInduction with
  | hnone rest => simp [TreeNode.initStack, Position.valid]
  | hsome c rest ih =>
    intro p hp
    simp only [TreeNode.initStack, List.mem_append, List.mem_singleton] at hp
    rcases hp with hp | rfl
    · exact ih p hp
    · simp [Position.valid]

theorem initStack_ne_nil (t : TreeNode) : t.initStack ≠ [] := by
  cases t with
  | mk c0 rest => cases c0 <;> simp [TreeNode.initStack]

theorem initStack_weight (t : TreeNode) : stackWeight t.initStack + 1 ≤ 2 * t.nodeCount := by
  induction t using TreeNode.leftInduction with
  | hnone rest =>
    simp [TreeNode.initStack, stackWeight, Position.weight, TreeNode.children,
      TreeNode.nodeCount, nodeCountOpt, nodeCountRest_eq]
    omega
  | hsome c rest ih =>
    simp [TreeNode.initStack, stackWeight, Position.weight, TreeNode.children,
      TreeNode.nodeCount, nodeCountOpt, nodeCountRest_eq] at ih ⊢
    omega

theorem InitLoop_eq (t : TreeNode) :
    ∀ fuel stack, t.nodeCount ≤ fuel →
      BTreeIterator.InitLoop fuel (some t) stack = Run.ok (t.initStack ++ stack) := by
  induction t using TreeNode.leftInduction with
  | hnone rest =>
    intro fuel stack h
    cases fuel with
    | zero => simp [TreeNode.nodeCount] at h
    | succ f =>
      simp [BTreeIterator.InitLoop, TreeNode.GetChild, TreeNode.children, TreeNode.GetKeyCount,
        TreeNode.initStack]
  | hsome c rest ih =>
    intro fuel stack h
    cases fuel with
    | zero => simp [TreeNode.nodeCount] at h
    | succ f =>
      have hc : c.nodeCount ≤ f := by
        simp [TreeNode.nodeCount, nodeCountOpt] at h; omega
      simp [BTreeIterator.InitLoop, TreeNode.GetChild, TreeNode.children, TreeNode.GetKeyCount,
        TreeNode.initStack, ih f _ hc]

theorem inorder_perm_allEntries (t : TreeNode) : t.inorder.Perm t.allEntries :=
  @TreeNode.rec (fun t => t.inorder.Perm t.allEntries)
    (fun o => (inorderOpt o).Perm (allEntriesOpt o))
    (fun r => (inorderRest r).Perm (r.map Prod.fst ++ allEntriesRest r))
    (fun p => (inorderOpt p.2).Perm (allEntriesOpt p.2))
    (fun c0 rest h2 h3 => by
      simp only [TreeNode.inorder, TreeNode.allEntries]
      exact (h2.append h3).trans (List.perm_append_comm_assoc _ _ _))
    (by simp [inorderOpt, allEntriesOpt])
    (fun t h => by simpa [inorderOpt, allEntriesOpt] using h)
    (by simp [inorderRest, allEntriesRest])
    (fun p r h4 h3 => by
      obtain ⟨e, c⟩ := p
      simp only [inorderRest, allEntriesRest, List.map_cons, List.cons_append]
      exact List.Perm.cons e ((h4.append h3).trans (List.perm_append_comm_assoc _ _ _)))
    (fun e c h2 => h2)
    t

theorem shiftedRest_perm (r : List (Entry × Option TreeNode)) :
    (shiftedRest r).Perm (inorderRest r) := by
  induction r with
  | nil => simp [shiftedRest, inorderRest]
  | cons p r ih =>
    obtain ⟨e, c⟩ := p
    simp only [shiftedRest, inorderRest]
    exact List.perm_middle.trans (List.Perm.cons e (List.Perm.append_left _ ih))

theorem yieldOrder_perm_inorder (t : TreeNode) : t.yieldOrder.Perm t.inorder := by
  induction t using TreeNode.leftInduction with
  | hnone rest =>
    simpa [TreeNode.yieldOrder, TreeNode.inorder, inorderOpt] using shiftedRest_perm rest
  | hsome c rest ih =>
    simp only [TreeNode.yieldOrder, TreeNode.inorder, inorderOpt]
    exact List.Perm.append_right _ ih

theorem yieldOrder_length (t : TreeNode) : t.yieldOrder.length = t.entryCount :=
  ((yieldOrder_perm_inorder t).trans (inorder_perm_allEntries t)).length_eq

/-- One `Next` on a non-empty stack of valid frames, with enough fuel. -/
theorem Next_step (fuel : Nat) (it : BTreeIterator) (hne : it.stack_ ≠ [])
    (hv : ∀ p ∈ it.stack_, p.valid) (hf : stackWeight it.stack_ + 1 < fuel) :
    (stackPending it.stack_ false = [] ∧ it.Next fuel = Run.ok ⟨[], it.current_entry_⟩) ∨
    (∃ it', it.Next fuel = Run.ok it' ∧ it'.stack_ ≠ [] ∧ (∀ p ∈ it'.stack_, p.valid) ∧
      stackWeight it'.stack_ ≤ stackWeight it.stack_ ∧
      stackPending it.stack_ false = it'.current_entry_ :: stackPending it'.stack_ false) := by
  have hnext : it.Next fuel = BTreeIterator.NextLoop fuel it.stack_ it.current_entry_ false := by
    unfold BTreeIterator.Next BTreeIterator.Done
    cases hs : it.stack_ with
    | nil => exact absurd hs hne
    | cons p s => simp
  have ht := NextLoop_terminates fuel it.stack_ it.current_entry_ false (by simpa using hf)
  rcases NextLoop_correct fuel it.stack_ it.current_entry_ false hv with h | h | ⟨it', h1, h2, h3, h4⟩
  · exact absurd h ht.1
  · left; rw [hnext]; exact h
  · right; exact ⟨it', by rw [hnext]; exact h1, h2, h3, ht.2 it' h1, h4⟩

theorem drain_eq (fuel : Nat) :
    ∀ (steps : Nat) (it : BTreeIterator), it.stack_ ≠ [] → (∀ p ∈ it.stack_, p.valid) →
      stackWeight it.stack_ + 1 < fuel →
      (stackPending it.stack_ false).length + 1 < steps →
      BTreeIterator.drain steps fuel it
        = Run.ok (it.current_entry_ :: stackPending it.stack_ false) := by
  intro steps
  induction steps with
  | zero => intro it _ _ _ h; omega
  | succ s ih =>
    intro it hne hv hf hs
    have hd : it.Done = false := by
      unfold BTreeIterator.Done
      cases h : it.stack_ with
      | nil => exact absurd h hne
      | cons p l => rfl
    rcases Next_step fuel it hne hv hf with ⟨hp, hn⟩ | ⟨it', hn, h2, h3, hw, h4⟩
    · cases s with
      | zero => omega
      | succ s' =>
        have h0 : BTreeIterator.drain (s' + 1) fuel ⟨[], it.current_entry_⟩ = Run.ok [] := by
          simp [BTreeIterator.drain, BTreeIterator.Done]
        rw [BTreeIterator.drain]
        simp only [hd, hn, h0, hp, BTreeIterator.deref]
        simp
    · have := ih it' h2 h3 (by omega) (by rw [h4] at hs; simp at hs; omega)
      simp [BTreeIterator.drain, hd, hn, this, h4, BTreeIterator.deref]

theorem new_eq (t : TreeNode) (fuel : Nat) (hf : t.fuelBound ≤ fuel) :
    (t.yieldOrder = [] ∧ BTreeIterator.new fuel (some t) = Run.ok ⟨[], default⟩) ∨
    (∃ it, BTreeIterator.new fuel (some t) = Run.ok it ∧ it.stack_ ≠ [] ∧
      (∀ p ∈ it.stack_, p.valid) ∧ stackWeight it.stack_ + 1 < fuel ∧
      t.yieldOrder = it.current_entry_ :: stackPending it.stack_ false) := by
  have hw := initStack_weight t
  have hinit := InitLoop_eq t fuel [] (by unfold TreeNode.fuelBound at hf; omega)
  rw [List.append_nil] at hinit
  have hpend : stackPending t.initStack false = t.yieldOrder := by
    simpa using initStack_pending t []
  have hnew : BTreeIterator.new fuel (some t)
      = BTreeIterator.Next fuel ⟨t.initStack, default⟩ := by
    simp only [BTreeIterator.new, hinit]
  rcases Next_step fuel ⟨t.initStack, default⟩ (initStack_ne_nil t) (initStack_valid t)
      (by unfold TreeNode.fuelBound at hf; simp only; omega) with ⟨hp, hn⟩ | ⟨it', hn, h2, h3, h4, h5⟩
  · left
    exact ⟨by rw [← hpend]; exact hp, by rw [hnew, hn]⟩
  · right
    refine ⟨it', by rw [hnew, hn], h2, h3, ?_, by rw [← hpend]; exact h5⟩
    unfold TreeNode.fuelBound at hf
    simp only at h4
    omega

theorem traverse_eq (t : TreeNode) (fuel : Nat) (hf : t.fuelBound ≤ fuel) :
    BTreeIterator.traverse fuel (some t) = Run.ok t.yieldOrder := by
  rcases new_eq t fuel hf with ⟨hy, hn⟩ | ⟨it, hn, h2, h3, h4, h5⟩
  · have hfuel : ∃ f, fuel = f + 1 := ⟨fuel - 1, by unfold TreeNode.fuelBound at hf; omega⟩
    obtain ⟨f, rfl⟩ := hfuel
    simp [BTreeIterator.traverse, hn, BTreeIterator.drain, BTreeIterator.Done, hy]
  · have hlen := yieldOrder_length t
    rw [h5] at hlen
    simp only [List.length_cons] at hlen
    have := drain_eq fuel fuel it h2 h3 h4 (by unfold TreeNode.fuelBound at hf; omega)
    simp only [BTreeIterator.traverse, hn, this, h5]

theorem NextN_done (fuel : Nat) :
    ∀ (n : Nat) (it : BTreeIterator), it.stack_ ≠ [] → (∀ p ∈ it.stack_, p.valid) →
      stackWeight it.stack_ + 1 < fuel → (stackPending it.stack_ false).length = n →
      ∃ it', BTreeIterator.NextN fuel (n + 1) it = Run.ok it' ∧ it'.Done = true := by
  intro n
  induction n with
  | zero =>
    intro it hne hv hf hlen
    rcases Next_step fuel it hne hv hf with ⟨_, hn⟩ | ⟨it', _, _, _, _, h4⟩
    · exact ⟨⟨[], it.current_entry_⟩, by simp [BTreeIterator.NextN, hn], rfl⟩
    · rw [h4] at hlen; simp at hlen
  | succ n ih =>
    intro it hne hv hf hlen
    rcases Next_step fuel it hne hv hf with ⟨hp, _⟩ | ⟨it', hn, h2, h3, hw, h4⟩
    · rw [hp] at hlen; simp at hlen
    · rw [h4] at hlen
      simp only [List.length_cons, Nat.add_right_cancel_iff] at hlen
      obtain ⟨it'', h, hd⟩ := ih it' h2 h3 (by omega) hlen
      refine ⟨it'', ?_, hd⟩
      rw [BTreeIterator.NextN]
      simp only [hn, h]

theorem shiftedRest_of_empty (r : List (Entry × Option TreeNode))
    (h : ∀ c ∈ r.map Prod.snd, c = none) : shiftedRest r = inorderRest r := by
  induction r with
  | nil => simp [shiftedRest, inorderRest]
  | cons p r ih =>
    obtain ⟨e, c⟩ := p
    have hc : c = none := h c (by simp)
    subst hc
    have := ih (fun c hc => h c (by simp at hc ⊢; right; exact hc))
    simp [shiftedRest, inorderRest, inorderOpt, this]

theorem yieldOrder_eq_inorder (t : TreeNode) :
    (∀ c ∈ t.descentStop.children, c = none) → t.yieldOrder = t.inorder := by
  induction t using TreeNode.leftInduction with
  | hnone rest =>
    intro h
    have := shiftedRest_of_empty rest
      (fun c hc => h c (by simp only [TreeNode.descentStop, TreeNode.children]; exact List.mem_cons_of_mem _ hc))
    simp [TreeNode.yieldOrder, TreeNode.inorder, inorderOpt, this]
  | hsome c rest ih =>
    intro h
    simp only [TreeNode.descentStop] at h
    simp [TreeNode.yieldOrder, TreeNode.inorder, inorderOpt, ih h]

/-! The iterator: order, completeness, termination -/

theorem sparseTree_invariant : sparseTree.Invariant := by
  simp [sparseTree, TreeNode.Invariant, InvariantOpt, InvariantRest, slotsBounded, keysUnder,
    allEntriesOpt, TreeNode.allEntries, allEntriesRest, entryA, entryB]
  decide

theorem sparseTree_yieldOrder : sparseTree.yieldOrder = [entryB, entryA] := by
  rfl

/-- C1 (failing input): the tree `sparseTree` satisfies the `TreeNode` invariant, yet with any
amount of fuel above the bound the iterator yields entry `b` and then entry `a`, which is
not in strictly increasing key order. -/
theorem C1_sparseTree_out_of_order :
    sparseTree.Invariant ∧
    (∀ extra : Nat, BTreeIterator.traverse (sparseTree.fuelBound + extra) (some sparseTree)
      = Run.ok [entryB, entryA]) ∧
    ¬ List.Pairwise (fun x y : Entry => x.key < y.key) [entryB, entryA] := by
  refine ⟨sparseTree_invariant, ?_, ?_⟩
  · intro extra
    rw [traverse_eq sparseTree _ (Nat.le_add_right _ _), sparseTree_yieldOrder]
  · simp [entryA, entryB, String.lt_iff_toList_lt]
    decide

/-- C2: for every tree, with enough fuel the traversal returns a list of entries that is a
permutation of all entries stored in the nodes reachable from the root, so no entry is
skipped and none is yielded twice. -/
theorem C2_traverse_perm_allEntries (root : TreeNode) (extra : Nat) :
    ∃ out, BTreeIterator.traverse (root.fuelBound + extra) (some root) = Run.ok out ∧
      out.Perm root.allEntries :=
  ⟨root.yieldOrder, traverse_eq root _ (Nat.le_add_right _ _),
    (yieldOrder_perm_inorder root).trans (inorder_perm_allEntries root)⟩

/-- C3 (failing input): the tree `sparseTree` satisfies the `TreeNode` invariant and holds
the entries `a` and `b`, yet right after construction the iterator is not `Done` and its
current entry is `b`, although `a` has the smaller key. -/
theorem C3_sparseTree_begins_at_b :
    sparseTree.Invariant ∧ entryA ∈ sparseTree.allEntries ∧ entryA.key < entryB.key ∧
    ∀ extra : Nat, ∃ it, BTreeIterator.new (sparseTree.fuelBound + extra) (some sparseTree)
      = Run.ok it ∧ it.Done = false ∧ it.deref = entryB := by
  refine ⟨sparseTree_invariant, by simp [sparseTree, TreeNode.allEntries], ?_, ?_⟩
  · simp [entryA, entryB, String.lt_iff_toList_lt]
    decide
  · intro extra
    rcases new_eq sparseTree _ (Nat.le_add_right _ extra) with ⟨hy, _⟩ | ⟨it, hn, hne, _, _, hy⟩
    · rw [sparseTree_yieldOrder] at hy
      cases hy
    · rw [sparseTree_yieldOrder] at hy
      refine ⟨it, hn, ?_, ?_⟩
      · unfold BTreeIterator.Done
        cases hs : it.stack_ with
        | nil => exact absurd hs hne
        | cons p l => rfl
      · simp only [List.cons.injEq] at hy
        exact hy.1.symm

/-- C4: the traversal is finite. Every call of `Next` ends within `stackWeight + 2` loop
iterations, whatever the iterator state; and for every tree the iterator built on its root
is `Done` after some number `k` of `Next` calls that is at most the number of entries of
the tree. -/
theorem C4_traversal_finite :
    (∀ (it : BTreeIterator) (extra : Nat),
      it.Next (stackWeight it.stack_ + 2 + extra) ≠ Run.out_of_fuel) ∧
    (∀ (root : TreeNode) (extra : Nat), ∃ it k it',
      BTreeIterator.new (root.fuelBound + extra) (some root) = Run.ok it ∧
      k ≤ root.entryCount ∧
      BTreeIterator.NextN (root.fuelBound + extra) k it = Run.ok it' ∧ it'.Done = true) := by
  constructor
  · intro it extra
    unfold BTreeIterator.Next
    split_ifs with hd
    · simp
    · exact (NextLoop_terminates _ it.stack_ it.current_entry_ false (by simp; omega)).1
  · intro root extra
    rcases new_eq root _ (Nat.le_add_right _ extra) with ⟨_, hn⟩ | ⟨it, hn, hne, hv, hw, hy⟩
    · exact ⟨⟨[], default⟩, 0, ⟨[], default⟩, hn, Nat.zero_le _, rfl, rfl⟩
    · obtain ⟨it', hk, hd⟩ := NextN_done _ _ it hne hv hw rfl
      refine ⟨it, _, it', hn, ?_, hk, hd⟩
      have hlen := yieldOrder_length root
      rw [hy] at hlen
      simp only [List.length_cons] at hlen
      omega

/-- C10: when every child slot of the node where the constructor's leftmost descent stops
is empty, the traversal returns exactly the reference in-order traversal of the tree,
whatever the other nodes look like. -/
theorem C10_traverse_eq_inorder (root : TreeNode) (extra : Nat)
    (h : ∀ c ∈ root.descentStop.children, c = none) :
    BTreeIterator.traverse (root.fuelBound + extra) (some root) = Run.ok root.inorder := by
  rw [traverse_eq root _ (Nat.le_add_right _ _), yieldOrder_eq_inorder root h]

/-- C10 (witness): in `leafyTree` the leftmost descent stops at the leaf holding `a`, and the
traversal of the tree is its in-order traversal. -/
theorem C10_traverse_eq_inorder_witness :
    (∀ c ∈ leafyTree.descentStop.children, c = none) ∧
    BTreeIterator.traverse (leafyTree.fuelBound + 0) (some leafyTree)
      = Run.ok leafyTree.inorder :=
  ⟨by simp [leafyTree, TreeNode.descentStop, TreeNode.children],
   C10_traverse_eq_inorder leafyTree 0
    (by simp [leafyTree, TreeNode.descentStop, TreeNode.children])⟩

/-! Lemmas about page storage and journals -/

theorem AddCommit_of_accepts (s : PageStorage) (c : Commit) (source : ChangeSource)
    (h : s.Accepts c) : s.AddCommit c source = (Status.OK, s.Insert c source) := by
  unfold PageStorage.AddCommit
  rw [if_neg h.1, if_pos]
  simpa [List.all_eq_true] using h.2

theorem AddCommit_of_not_accepts (s : PageStorage) (c : Commit) (source : ChangeSource)
    (h : ¬ s.Accepts c) : (s.AddCommit c source).2 = s := by
  unfold PageStorage.AddCommit
  split_ifs with h1 h2
  · rfl
  · exact absurd ⟨h1, by simpa [List.all_eq_true] using h2⟩ h
  · rfl

theorem Insert_ids (s : PageStorage) (c : Commit) (source : ChangeSource) :
    (s.Insert c source).ids = s.ids ++ [c.id] := by
  simp [PageStorage.Insert, PageStorage.ids]

theorem not_listed_of_accepts {s : PageStorage} (hs : s.Inv) {c : Commit} (h : s.Accepts c) :
    ∀ d ∈ s.commits, c.id ∉ d.parent_ids :=
  fun d hd hc => h.1 (hs.1 d hd c.id hc)

theorem Insert_heads {s : PageStorage} (hs : s.Inv) {c : Commit} (h : s.Accepts c)
    (source : ChangeSource) :
    (s.Insert c source).heads = s.heads.filter (fun x => decide (x ∉ c.parent_ids)) ++ [c.id] := by
  have hn : s.commits.any (fun d => decide (c.id ∈ d.parent_ids)) = false := by
    rw [List.any_eq_false]
    intro d hd
    simpa using not_listed_of_accepts hs h d hd
  simp [PageStorage.Insert, hn]

theorem Inv_Init : PageStorage.Init.Inv := by
  refine ⟨?_, ?_, ?_, ?_, ?_, ?_, ?_⟩ <;>
    simp [PageStorage.Init, PageStorage.ids, initialCommit]

theorem Inv_Insert {s : PageStorage} (hs : s.Inv) {c : Commit} (h : s.Accepts c)
    (source : ChangeSource) : (s.Insert c source).Inv := by
  obtain ⟨h1, h2, _, h4, h5, h6, h7⟩ := hs
  have hnl := not_listed_of_accepts ⟨h1, h2, ‹_›, h4, h5, h6, h7⟩ h
  have hself : c.id ∉ c.parent_ids := fun hc => h.1 (h.2 _ hc)
  refine ⟨?_, ?_, ?_, ?_, ?_, ?_, ?_⟩
  · intro d hd p hp
    rw [Insert_ids]
    have hd' : d ∈ s.commits ∨ d = c := by simpa [PageStorage.Insert] using hd
    rcases hd' with hd' | rfl
    · exact List.mem_append_left _ (h1 d hd' p hp)
    · exact List.mem_append_left _ (h.2 p hp)
  · intro id
    rw [Insert_heads ⟨h1, h2, ‹_›, h4, h5, h6, h7⟩ h, Insert_ids]
    simp only [List.mem_append, List.mem_filter, List.mem_singleton, decide_eq_true_eq,
      PageStorage.Insert]
    constructor
    · rintro (⟨hh, hnp⟩ | rfl)
      · refine ⟨Or.inl ((h2 id).1 hh).1, ?_⟩
        intro d hd
        rcases hd with hd | hd
        · exact ((h2 id).1 hh).2 d hd
        · rw [hd]; exact hnp
      · refine ⟨Or.inr rfl, ?_⟩
        intro d hd
        rcases hd with hd | hd
        · exact hnl d hd
        · rw [hd]; exact hself
    · rintro ⟨hid | rfl, hch⟩
      · left
        exact ⟨(h2 id).2 ⟨hid, fun d hd => hch d (Or.inl hd)⟩, hch c (Or.inr rfl)⟩
      · right; rfl
  · rw [Insert_heads ⟨h1, h2, ‹_›, h4, h5, h6, h7⟩ h]
    simp
  · rw [Insert_ids]
    exact List.Nodup.append h4 (List.nodup_singleton _) (by simpa using h.1)
  · exact h5
  · intro n hn
    rw [Insert_ids]
    have hn' : n ∈ s.delivered ∨ ∃ w ∈ s.watchers, (⟨w, c.id, source⟩ : Notification) = n := by
      simpa [PageStorage.Insert] using hn
    rcases hn' with hn' | ⟨w, _, rfl⟩
    · exact List.mem_append_left _ (h6 n hn')
    · simp
  · intro id hid
    rw [Insert_ids]
    have hid' : id ∈ s.unsynced ∨ id = c.id := by
      unfold PageStorage.Insert at hid
      simp only at hid
      split_ifs at hid
      · simpa using hid
      · exact Or.inl hid
    rcases hid' with hid' | rfl
    · exact List.mem_append_left _ (h7 id hid')
    · simp

theorem Inv_AddCommit {s : PageStorage} (hs : s.Inv) (c : Commit) (source : ChangeSource) :
    (s.AddCommit c source).2.Inv := by
  by_cases h : s.Accepts c
  · rw [AddCommit_of_accepts s c source h]
    exact Inv_Insert hs h source
  · rw [AddCommit_of_not_accepts s c source h]
    exact hs

theorem Inv_step {s : PageStorage} (hs : s.Inv) (op : Op) : (s.step op).Inv := by
  cases op with
  | addLocal c => exact Inv_AddCommit hs c _
  | addSync c => exact Inv_AddCommit hs c _
  | markSynced id =>
    obtain ⟨h1, h2, h3, h4, h5, h6, h7⟩ := hs
    refine ⟨h1, h2, h3, h4, h5, h6, ?_⟩
    intro x hx
    have : x ∈ s.unsynced := by
      simp only [PageStorage.step, PageStorage.MarkCommitSynced, List.mem_filter] at hx
      exact hx.1
    exact h7 x this
  | addWatcher w =>
    obtain ⟨h1, h2, h3, h4, h5, h6, h7⟩ := hs
    simp only [PageStorage.step, PageStorage.AddCommitWatcher]
    split_ifs with hw
    · exact ⟨h1, h2, h3, h4, h5, h6, h7⟩
    · refine ⟨h1, h2, h3, h4, ?_, h6, h7⟩
      exact List.Nodup.append h5 (List.nodup_singleton _) (by simpa using hw)
  | removeWatcher w =>
    obtain ⟨h1, h2, h3, h4, h5, h6, h7⟩ := hs
    exact ⟨h1, h2, h3, h4, List.Nodup.filter _ h5, h6, h7⟩

theorem run_snoc (ops : List Op) (op : Op) :
    PageStorage.run (ops ++ [op]) = (PageStorage.run ops).step op := by
  simp [PageStorage.run, List.foldl_append]

theorem Inv_run (ops : List Op) : (PageStorage.run ops).Inv := by
  induction ops using List.reverseRecOn with
  | nil => exact Inv_Init
  | append_singleton ops op ih => rw [run_snoc]; exact Inv_step ih op

theorem snoc_eq_append_cons {α : Type} {ops pre post : List α} {op x : α}
    (h : ops ++ [op] = pre ++ x :: post) :
    (post = [] ∧ pre = ops ∧ x = op) ∨ (∃ post', post = post' ++ [op] ∧ ops = pre ++ x :: post') := by
  rcases List.eq_nil_or_concat post with rfl | ⟨L, b, rfl⟩
  · have := List.append_inj' h rfl
    simp only [List.cons.injEq, and_true] at this
    exact Or.inl ⟨rfl, this.1.symm, this.2.symm⟩
  · have h' : ops ++ [op] = (pre ++ x :: L) ++ [b] := by simpa using h
    have := List.append_inj' h' rfl
    simp only [List.cons.injEq, and_true] at this
    exact Or.inr ⟨L, by rw [this.2, List.concat_eq_append], this.1⟩

theorem step_addLocal_unsynced (s : PageStorage) (c : Commit) :
    (s.Accepts c ∧ (s.step (Op.addLocal c)).unsynced = s.unsynced ++ [c.id]) ∨
    (¬ s.Accepts c ∧ (s.step (Op.addLocal c)).unsynced = s.unsynced) := by
  by_cases h : s.Accepts c
  · left
    refine ⟨h, ?_⟩
    simp [PageStorage.step, PageStorage.AddCommitFromLocal, AddCommit_of_accepts s c _ h,
      PageStorage.Insert]
  · right
    refine ⟨h, ?_⟩
    simp [PageStorage.step, PageStorage.AddCommitFromLocal, AddCommit_of_not_accepts s c _ h]

theorem step_addSync_unsynced (s : PageStorage) (c : Commit) :
    (s.step (Op.addSync c)).unsynced = s.unsynced := by
  by_cases h : s.Accepts c
  · simp [PageStorage.step, PageStorage.AddCommitFromSync, AddCommit_of_accepts s c _ h,
      PageStorage.Insert]
  · simp [PageStorage.step, PageStorage.AddCommitFromSync, AddCommit_of_not_accepts s c _ h]

theorem step_addWatcher_unsynced (s : PageStorage) (w : WatcherId) :
    (s.step (Op.addWatcher w)).unsynced = s.unsynced := by
  simp only [PageStorage.step, PageStorage.AddCommitWatcher]
  split_ifs <;> rfl

/-- An id carries an unsynced marker exactly when some earlier `AddCommitFromLocal` of a
commit with this id took effect and no `MarkCommitSynced` of the id came after it. -/
theorem unsynced_iff (ops : List Op) (id : CommitId) :
    id ∈ (PageStorage.run ops).unsynced ↔
      ∃ pre c post, ops = pre ++ Op.addLocal c :: post ∧ c.id = id ∧
        (PageStorage.run pre).Accepts c ∧ Op.markSynced id ∉ post := by
  induction ops using List.reverseRecOn with
  | nil =>
    constructor
    · intro h; simp [PageStorage.run, PageStorage.Init] at h
    · rintro ⟨pre, c, post, h, _⟩
      simp at h
  | append_singleton ops op ih =>
    rw [run_snoc]
    have extend : op ≠ Op.markSynced id → id ∈ (PageStorage.run ops).unsynced →
        ∃ pre c post, ops ++ [op] = pre ++ Op.addLocal c :: post ∧ c.id = id ∧
          (PageStorage.run pre).Accepts c ∧ Op.markSynced id ∉ post := by
      intro hop hmem
      obtain ⟨pre, c, post, h1, h2, h3, h4⟩ := ih.1 hmem
      refine ⟨pre, c, post ++ [op], by rw [h1]; simp, h2, h3, ?_⟩
      simp only [List.mem_append, List.mem_singleton, not_or]
      exact ⟨h4, fun h => hop h.symm⟩
    have restrict : ∀ pre c post, ops ++ [op] = pre ++ Op.addLocal c :: post → c.id = id →
        (PageStorage.run pre).Accepts c → Op.markSynced id ∉ post →
        (op = Op.addLocal c ∧ (PageStorage.run ops).Accepts c) ∨
        (op ≠ Op.markSynced id ∧ id ∈ (PageStorage.run ops).unsynced) := by
      intro pre c post h1 h2 h3 h4
      rcases snoc_eq_append_cons h1 with ⟨_, rfl, rfl⟩ | ⟨post', rfl, rfl⟩
      · exact Or.inl ⟨rfl, h3⟩
      · right
        simp only [List.mem_append, List.mem_singleton, not_or] at h4
        exact ⟨fun h => h4.2 h.symm, ih.2 ⟨pre, c, post', rfl, h2, h3, h4.1⟩⟩
    constructor
    · intro hmem
      cases op with
      | addLocal c =>
        rcases step_addLocal_unsynced (PageStorage.run ops) c with ⟨hacc, hu⟩ | ⟨_, hu⟩
        · rw [hu] at hmem
          rcases List.mem_append.1 hmem with hmem | hmem
          · exact extend (by simp) hmem
          · exact ⟨ops, c, [], rfl, (List.mem_singleton.1 hmem).symm, hacc, by simp⟩
        · rw [hu] at hmem
          exact extend (by simp) hmem
      | addSync c =>
        rw [step_addSync_unsynced] at hmem
        exact extend (by simp) hmem
      | markSynced j =>
        simp only [PageStorage.step, PageStorage.MarkCommitSynced, List.mem_filter,
          decide_eq_true_eq] at hmem
        exact extend (by simp; exact fun h => hmem.2 h.symm) hmem.1
      | addWatcher w =>
        rw [step_addWatcher_unsynced] at hmem
        exact extend (by simp) hmem
      | removeWatcher w => exact extend (by simp) hmem
    · rintro ⟨pre, c, post, h1, h2, h3, h4⟩
      rcases restrict pre c post h1 h2 h3 h4 with ⟨rfl, hacc⟩ | ⟨hop, hmem⟩
      · rcases step_addLocal_unsynced (PageStorage.run ops) c with ⟨_, hu⟩ | ⟨hn, _⟩
        · rw [hu, ← h2]; simp
        · exact absurd hacc hn
      · cases op with
        | addLocal c' =>
          rcases step_addLocal_unsynced (PageStorage.run ops) c' with ⟨_, hu⟩ | ⟨_, hu⟩
          · rw [hu]; exact List.mem_append_left _ hmem
          · rw [hu]; exact hmem
        | addSync c' => rw [step_addSync_unsynced]; exact hmem
        | markSynced j =>
          simp only [PageStorage.step, PageStorage.MarkCommitSynced, List.mem_filter,
            decide_eq_true_eq]
          exact ⟨hmem, fun h => hop (by rw [h])⟩
        | addWatcher w => rw [step_addWatcher_unsynced]; exact hmem
        | removeWatcher w => exact hmem

theorem step_commits_mono (s : PageStorage) (op : Op) {c : Commit} (h : c ∈ s.commits) :
    c ∈ (s.step op).commits := by
  cases op with
  | addLocal c' =>
    by_cases ha : s.Accepts c'
    · simp [PageStorage.step, PageStorage.AddCommitFromLocal, AddCommit_of_accepts s c' _ ha,
        PageStorage.Insert, h]
    · simpa [PageStorage.step, PageStorage.AddCommitFromLocal,
        AddCommit_of_not_accepts s c' _ ha] using h
  | addSync c' =>
    by_cases ha : s.Accepts c'
    · simp [PageStorage.step, PageStorage.AddCommitFromSync, AddCommit_of_accepts s c' _ ha,
        PageStorage.Insert, h]
    · simpa [PageStorage.step, PageStorage.AddCommitFromSync,
        AddCommit_of_not_accepts s c' _ ha] using h
  | markSynced id => exact h
  | addWatcher w =>
    simp only [PageStorage.step, PageStorage.AddCommitWatcher]
    split_ifs <;> exact h
  | removeWatcher w => exact h

theorem foldl_commits_mono (post : List Op) :
    ∀ (s : PageStorage) {c : Commit}, c ∈ s.commits →
      c ∈ (post.foldl PageStorage.step s).commits := by
  induction post with
  | nil => intro s c h; exact h
  | cons op post ih => intro s c h; exact ih _ (step_commits_mono s op h)

theorem run_append (pre post : List Op) :
    PageStorage.run (pre ++ post) = post.foldl PageStorage.step (PageStorage.run pre) := by
  simp [PageStorage.run, List.foldl_append]

theorem step_insert (s : PageStorage) (c : Commit) (op : Op) (source : ChangeSource)
    (hop : (op = Op.addLocal c ∧ source = ChangeSource.LOCAL) ∨
      (op = Op.addSync c ∧ source = ChangeSource.SYNC))
    (hacc : s.Accepts c) : s.step op = s.Insert c source := by
  rcases hop with ⟨rfl, rfl⟩ | ⟨rfl, rfl⟩
  · simp [PageStorage.step, PageStorage.AddCommitFromLocal, AddCommit_of_accepts s c _ hacc]
  · simp [PageStorage.step, PageStorage.AddCommitFromSync, AddCommit_of_accepts s c _ hacc]

theorem mem_commits_after_insert (pre rest : List Op) (c : Commit) (op : Op)
    (source : ChangeSource)
    (hop : (op = Op.addLocal c ∧ source = ChangeSource.LOCAL) ∨
      (op = Op.addSync c ∧ source = ChangeSource.SYNC))
    (hacc : (PageStorage.run pre).Accepts c) :
    c ∈ (PageStorage.run (pre ++ op :: rest)).commits := by
  rw [run_append, List.foldl_cons, step_insert _ c op source hop hacc]
  apply foldl_commits_mono
  simp [PageStorage.Insert]

theorem eq_of_mem_commits {s : PageStorage} (hs : s.Inv) {c d : Commit}
    (hc : c ∈ s.commits) (hd : d ∈ s.commits) (h : c.id = d.id) : c = d :=
  List.inj_on_of_nodup_map hs.2.2.2.1 hc hd h

/-- Two takes-effect insertions of commits with the same id cannot both occur in one
history, whatever their provenance. -/
theorem insert_unique (pre post pre' post' : List Op) (c c' : Commit) (op op' : Op)
    (source source' : ChangeSource)
    (hop : (op = Op.addLocal c ∧ source = ChangeSource.LOCAL) ∨
      (op = Op.addSync c ∧ source = ChangeSource.SYNC))
    (hop' : (op' = Op.addLocal c' ∧ source' = ChangeSource.LOCAL) ∨
      (op' = Op.addSync c' ∧ source' = ChangeSource.SYNC))
    (hacc : (PageStorage.run pre).Accepts c) (hacc' : (PageStorage.run pre').Accepts c')
    (hid : c.id = c'.id)
    (h : pre ++ op :: post = pre' ++ op' :: post') : pre = pre' ∧ op = op' := by
  rcases List.append_eq_append_iff.1 h with ⟨a, h1, h2⟩ | ⟨a, h1, h2⟩
  · cases a with
    | nil =>
      simp only [List.nil_append, List.cons.injEq] at h2
      exact ⟨by simpa using h1.symm, h2.1⟩
    | cons x a =>
      simp only [List.cons_append, List.cons.injEq] at h2
      obtain ⟨rfl, _⟩ := h2
      have hmem := mem_commits_after_insert pre a c op source hop hacc
      rw [← h1] at hmem
      exact absurd (List.mem_map.2 ⟨c, hmem, hid⟩) hacc'.1
  · cases a with
    | nil =>
      simp only [List.nil_append, List.cons.injEq] at h2
      exact ⟨by simpa using h1, h2.1.symm⟩
    | cons x a =>
      simp only [List.cons_append, List.cons.injEq] at h2
      obtain ⟨rfl, _⟩ := h2
      have hmem := mem_commits_after_insert pre' a c' op' source' hop' hacc'
      rw [← h1] at hmem
      exact absurd (List.mem_map.2 ⟨c', hmem, hid.symm⟩) hacc.1

theorem step_ids_mono (s : PageStorage) (op : Op) {id : CommitId} (h : id ∈ s.ids) :
    id ∈ (s.step op).ids := by
  obtain ⟨c, hc, rfl⟩ := List.mem_map.1 h
  exact List.mem_map.2 ⟨c, step_commits_mono s op hc, rfl⟩

theorem step_delivered_filter (s : PageStorage) (op : Op) (w : WatcherId) (id : CommitId)
    (h : id ∈ s.ids) :
    (s.step op).delivered.filter (fun n => decide (n.watcher = w ∧ n.commit_id = id))
      = s.delivered.filter (fun n => decide (n.watcher = w ∧ n.commit_id = id)) := by
  have hins : ∀ (c : Commit) (source : ChangeSource), s.Accepts c →
      (s.Insert c source).delivered.filter (fun n => decide (n.watcher = w ∧ n.commit_id = id))
        = s.delivered.filter (fun n => decide (n.watcher = w ∧ n.commit_id = id)) := by
    intro c source ha
    have hne : ¬ c.id = id := fun hc => ha.1 (hc ▸ h)
    simp only [PageStorage.Insert, List.filter_append, List.append_right_eq_self,
      List.filter_eq_nil_iff, List.mem_map, decide_eq_true_eq, not_and]
    rintro n ⟨v, _, rfl⟩ _
    exact hne
  cases op with
  | addLocal c =>
    by_cases ha : s.Accepts c
    · simp only [PageStorage.step, PageStorage.AddCommitFromLocal,
        AddCommit_of_accepts s c _ ha]
      exact hins c _ ha
    · simp only [PageStorage.step, PageStorage.AddCommitFromLocal,
        AddCommit_of_not_accepts s c _ ha]
  | addSync c =>
    by_cases ha : s.Accepts c
    · simp only [PageStorage.step, PageStorage.AddCommitFromSync,
        AddCommit_of_accepts s c _ ha]
      exact hins c _ ha
    · simp only [PageStorage.step, PageStorage.AddCommitFromSync,
        AddCommit_of_not_accepts s c _ ha]
  | markSynced j => rfl
  | addWatcher v =>
    simp only [PageStorage.step, PageStorage.AddCommitWatcher]
    split_ifs <;> rfl
  | removeWatcher v => rfl

theorem foldl_delivered_filter (post : List Op) (w : WatcherId) (id : CommitId) :
    ∀ s : PageStorage, id ∈ s.ids →
      (post.foldl PageStorage.step s).delivered.filter
          (fun n => decide (n.watcher = w ∧ n.commit_id = id))
        = s.delivered.filter (fun n => decide (n.watcher = w ∧ n.commit_id = id)) := by
  induction post with
  | nil => intro s _; rfl
  | cons op post ih =>
    intro s h
    rw [List.foldl_cons, ih _ (step_ids_mono s op h), step_delivered_filter s op w id h]

theorem filter_fanout (W : List WatcherId) (hW : W.Nodup) (w : WatcherId) (id : CommitId)
    (source : ChangeSource) :
    (W.map (fun v => (⟨v, id, source⟩ : Notification))).filter
        (fun n => decide (n.watcher = w ∧ n.commit_id = id))
      = if w ∈ W then [⟨w, id, source⟩] else [] := by
  induction W with
  | nil => simp
  | cons v W ih =>
    have hv : v ∉ W := (List.nodup_cons.1 hW).1
    have ih' := ih (List.nodup_cons.1 hW).2
    by_cases hvw : v = w
    · subst hvw
      simp only [List.map_cons, List.mem_cons, true_or, if_true]
      rw [List.filter_cons_of_pos (by simp), ih', if_neg hv]
    · have hwv : ¬ w = v := fun h => hvw h.symm
      simp only [List.map_cons, List.mem_cons, hwv, false_or]
      rw [List.filter_cons_of_neg (by simp [hvw]), ih']

theorem filter_fanout_watcher (W : List WatcherId) (hW : W.Nodup) (w : WatcherId)
    (id : CommitId) (source : ChangeSource) :
    (W.map (fun v => (⟨v, id, source⟩ : Notification))).filter
        (fun n => decide (n.watcher = w))
      = if w ∈ W then [⟨w, id, source⟩] else [] := by
  induction W with
  | nil => simp
  | cons v W ih =>
    have hv : v ∉ W := (List.nodup_cons.1 hW).1
    have ih' := ih (List.nodup_cons.1 hW).2
    by_cases hvw : v = w
    · subst hvw
      simp only [List.map_cons, List.mem_cons, true_or, if_true]
      rw [List.filter_cons_of_pos (by simp), ih', if_neg hv]
    · have hwv : ¬ w = v := fun h => hvw h.symm
      simp only [List.map_cons, List.mem_cons, hwv, false_or]
      rw [List.filter_cons_of_neg (by simp [hvw]), ih']

/-- A watcher is registered exactly when some earlier `AddCommitWatcher` of it was not
followed by a `RemoveCommitWatcher` of it. -/
theorem watchers_iff (ops : List Op) (w : WatcherId) :
    w ∈ (PageStorage.run ops).watchers ↔
      ∃ p q, ops = p ++ Op.addWatcher w :: q ∧ Op.removeWatcher w ∉ q := by
  induction ops using List.reverseRecOn with
  | nil =>
    constructor
    · intro h; simp [PageStorage.run, PageStorage.Init] at h
    · rintro ⟨p, q, h, _⟩
      simp at h
  | append_singleton ops op ih =>
    rw [run_snoc]
    have extend : op ≠ Op.removeWatcher w → w ∈ (PageStorage.run ops).watchers →
        ∃ p q, ops ++ [op] = p ++ Op.addWatcher w :: q ∧ Op.removeWatcher w ∉ q := by
      intro hop hmem
      obtain ⟨p, q, h1, h2⟩ := ih.1 hmem
      refine ⟨p, q ++ [op], by rw [h1]; simp, ?_⟩
      simp only [List.mem_append, List.mem_singleton, not_or]
      exact ⟨h2, fun h => hop h.symm⟩
    have restrict : ∀ p q, ops ++ [op] = p ++ Op.addWatcher w :: q → Op.removeWatcher w ∉ q →
        op = Op.addWatcher w ∨
        (op ≠ Op.removeWatcher w ∧ w ∈ (PageStorage.run ops).watchers) := by
      intro p q h1 h2
      rcases snoc_eq_append_cons h1 with ⟨_, rfl, rfl⟩ | ⟨q', rfl, rfl⟩
      · exact Or.inl rfl
      · right
        simp only [List.mem_append, List.mem_singleton, not_or] at h2
        exact ⟨fun h => h2.2 h.symm, ih.2 ⟨p, q', rfl, h2.1⟩⟩
    have hadd : ∀ (c : Commit) (source : ChangeSource),
        ((PageStorage.run ops).AddCommit c source).2.watchers
          = (PageStorage.run ops).watchers := by
      intro c source
      by_cases ha : (PageStorage.run ops).Accepts c
      · rw [AddCommit_of_accepts _ c _ ha]; rfl
      · rw [AddCommit_of_not_accepts _ c _ ha]
    constructor
    · intro hmem
      cases op with
      | addLocal c =>
        exact extend (by simp) (by
          simpa [PageStorage.step, PageStorage.AddCommitFromLocal, hadd] using hmem)
      | addSync c =>
        exact extend (by simp) (by
          simpa [PageStorage.step, PageStorage.AddCommitFromSync, hadd] using hmem)
      | markSynced j => exact extend (by simp) hmem
      | addWatcher v =>
        simp only [PageStorage.step, PageStorage.AddCommitWatcher] at hmem
        split_ifs at hmem with hv
        · exact extend (by simp) hmem
        · rcases List.mem_append.1 hmem with hmem | hmem
          · exact extend (by simp) hmem
          · rw [List.mem_singleton.1 hmem]
            exact ⟨ops, [], rfl, by simp⟩
      | removeWatcher v =>
        simp only [PageStorage.step, PageStorage.RemoveCommitWatcher, List.mem_filter,
          decide_eq_true_eq] at hmem
        exact extend (by simp; exact fun h => hmem.2 h.symm) hmem.1
    · rintro ⟨p, q, h1, h2⟩
      rcases restrict p q h1 h2 with rfl | ⟨hop, hmem⟩
      · simp only [PageStorage.step, PageStorage.AddCommitWatcher]
        split_ifs with hv
        · exact hv
        · simp
      · cases op with
        | addLocal c =>
          simpa [PageStorage.step, PageStorage.AddCommitFromLocal, hadd] using hmem
        | addSync c =>
          simpa [PageStorage.step, PageStorage.AddCommitFromSync, hadd] using hmem
        | markSynced j => exact hmem
        | addWatcher v =>
          simp only [PageStorage.step, PageStorage.AddCommitWatcher]
          split_ifs with hv
          · exact hmem
          · exact List.mem_append_left _ hmem
        | removeWatcher v =>
          simp only [PageStorage.step, PageStorage.RemoveCommitWatcher, List.mem_filter,
            decide_eq_true_eq]
          exact ⟨hmem, fun h => hop (by rw [h])⟩

/-- A journal `Commit` changes the page only through `AddCommitFromLocal` of the sealed
commit. -/
theorem Journal.Commit_page (sealed : Journal → storage.Commit) (j : Journal)
    (s : PageStorage) :
    (j.Commit sealed s).2.2 = s ∨
    (j.Commit sealed s).2.2 = (s.step (Op.addLocal (sealed j))) := by
  unfold Journal.Commit
  split_ifs with ho
  · split
    · exact Or.inl rfl
    · split
      · next s' heq => right; simp [PageStorage.step, heq]
      · next status s' _ heq => right; simp [PageStorage.step, heq]
  · exact Or.inl rfl

/-! Journals, heads, unsynced commits and watchers -/

theorem Journal.calls_of_not_open (sealed : Journal → storage.Commit) (later : List JournalCall) :
    ∀ (j : Journal) (s : PageStorage), j.state ≠ JournalState.OPEN →
      Journal.calls sealed later j s = (later.map (fun _ => Status.ILLEGAL_STATE), j, s) := by
  induction later with
  | nil => intro j s _; rfl
  | cons call later ih =>
    intro j s h
    have hc : j.call sealed s call = (Status.ILLEGAL_STATE, j, s) := by
      cases call <;> simp [Journal.call, Journal.Commit, Journal.Rollback, h]
    simp only [Journal.calls, hc, ih j s h, List.map_cons]

theorem Journal.Commit_cases (sealed : Journal → storage.Commit) (j : Journal)
    (s : PageStorage) :
    (∃ r, j.Commit sealed s = (r, ⟨j.journal_type, j.bases, j.pending, JournalState.COMMITTED⟩,
      (j.Commit sealed s).2.2)) ∨
    (∃ status, status ≠ Status.OK ∧ (j.Commit sealed s).1.1 = status) := by
  unfold Journal.Commit
  split_ifs with ho
  · split
    · exact Or.inl ⟨_, rfl⟩
    · split
      · exact Or.inl ⟨_, rfl⟩
      · next status s' hne heq =>
        exact Or.inr ⟨status, fun hs => hne hs, rfl⟩
  · exact Or.inr ⟨Status.ILLEGAL_STATE, by decide, rfl⟩

theorem Journal.Commit_ok_state (sealed : Journal → storage.Commit) (j : Journal)
    (s : PageStorage) (h : (j.Commit sealed s).1.1 = Status.OK) :
    (j.Commit sealed s).2.1.state = JournalState.COMMITTED := by
  rcases Journal.Commit_cases sealed j s with ⟨r, hr⟩ | ⟨status, hne, hs⟩
  · rw [hr]
  · exact absurd (hs.symm.trans h) hne

theorem Journal.Rollback_state (j : Journal) : j.Rollback.2.state ≠ JournalState.OPEN := by
  unfold Journal.Rollback
  split_ifs with h
  · simp
  · exact h

/-- C6: once `Commit` has succeeded or `Rollback` has been called on a journal, every later
`Commit` and `Rollback` reports `ILLEGAL_STATE`, and the journal and the page stay as they
are, whatever the page state and however many calls follow. -/
theorem C6_terminal_states_absorbing (sealed : Journal → storage.Commit) (j j' : Journal)
    (s : PageStorage)
    (h : ((j.Commit sealed s).1.1 = Status.OK ∧ j' = (j.Commit sealed s).2.1) ∨
      j' = j.Rollback.2)
    (s' : PageStorage) (later : List JournalCall) :
    Journal.calls sealed later j' s' = (later.map (fun _ => Status.ILLEGAL_STATE), j', s') := by
  apply Journal.calls_of_not_open
  rcases h with ⟨hok, rfl⟩ | rfl
  · rw [Journal.Commit_ok_state sealed j s hok]
    decide
  · exact Journal.Rollback_state j

/-- C6 (witness): the journal `openJournal` is committed on a fresh page; a second `Commit` and
a `Rollback` both report `ILLEGAL_STATE` and change neither the journal nor the page. -/
theorem C6_terminal_states_absorbing_witness :
    (((openJournal.Commit (fun _ => commitA) PageStorage.Init).1.1 = Status.OK ∧
        committedJournal = (openJournal.Commit (fun _ => commitA) PageStorage.Init).2.1) ∨
      committedJournal = openJournal.Rollback.2) ∧
    Journal.calls (fun _ => commitA) [JournalCall.Commit, JournalCall.Rollback] committedJournal
        (openJournal.Commit (fun _ => commitA) PageStorage.Init).2.2
      = ([Status.ILLEGAL_STATE, Status.ILLEGAL_STATE], committedJournal,
        (openJournal.Commit (fun _ => commitA) PageStorage.Init).2.2) :=
  ⟨Or.inl ⟨by decide, by decide⟩,
   C6_terminal_states_absorbing (fun _ => commitA) openJournal committedJournal PageStorage.Init
    (Or.inl ⟨by decide, by decide⟩) _ [JournalCall.Commit, JournalCall.Rollback]⟩

/-- C7: in every reachable page state, ingesting a commit `c` whose parents are all known
(commit ids being content hashes, a known commit with the id of `c` is `c` itself)
succeeds and leaves as heads exactly the previous heads that are not parents of `c`,
together with the id of `c` unless a known commit lists it as a parent; when the only
head is the only parent of `c`, the head set becomes `[c.id]`; and the head set is empty
neither before nor afterwards. -/
theorem C7_head_set_maintenance (ops : List Op) (c : Commit) (source : ChangeSource)
    (hp : ∀ p ∈ c.parent_ids, p ∈ (PageStorage.run ops).ids)
    (hid : ∀ d ∈ (PageStorage.run ops).commits, d.id = c.id → d = c) :
    ((PageStorage.run ops).AddCommit c source).1 = Status.OK ∧
    (∀ id, id ∈ ((PageStorage.run ops).AddCommit c source).2.heads ↔
      (id ∈ (PageStorage.run ops).heads ∧ id ∉ c.parent_ids) ∨
      (id = c.id ∧ ∀ d ∈ (PageStorage.run ops).commits, c.id ∉ d.parent_ids)) ∧
    (∀ h, (PageStorage.run ops).heads = [h] → c.parent_ids = [h] →
      ((PageStorage.run ops).AddCommit c source).2.heads = [c.id]) ∧
    (PageStorage.run ops).heads ≠ [] ∧
    ((PageStorage.run ops).AddCommit c source).2.heads ≠ [] := by
  have hs := Inv_run ops
  generalize PageStorage.run ops = s at hp hid hs ⊢
  suffices hmain : (s.AddCommit c source).1 = Status.OK ∧
      (∀ id, id ∈ (s.AddCommit c source).2.heads ↔
        (id ∈ s.heads ∧ id ∉ c.parent_ids) ∨ (id = c.id ∧ ∀ d ∈ s.commits, c.id ∉ d.parent_ids)) ∧
      (∀ h, s.heads = [h] → c.parent_ids = [h] → (s.AddCommit c source).2.heads = [c.id]) ∧
      (s.AddCommit c source).2.heads ≠ [] from
    ⟨hmain.1, hmain.2.1, hmain.2.2.1, hs.2.2.1, hmain.2.2.2⟩
  by_cases hk : c.id ∈ s.ids
  · have hadd : s.AddCommit c source = (Status.OK, s) := by
      unfold PageStorage.AddCommit
      rw [if_pos hk]
    have hc : c ∈ s.commits := by
      obtain ⟨d, hd, hdc⟩ := List.mem_map.1 hk
      rw [← hid d hd hdc]; exact hd
    rw [hadd]
    refine ⟨rfl, ?_, ?_, hs.2.2.1⟩
    · intro id
      constructor
      · intro hh
        exact Or.inl ⟨hh, ((hs.2.1 id).1 hh).2 c hc⟩
      · rintro (⟨hh, _⟩ | ⟨rfl, hch⟩)
        · exact hh
        · exact (hs.2.1 _).2 ⟨hk, hch⟩
    · intro h hh hpar
      have hmem : h ∈ s.heads := by rw [hh]; simp
      exact absurd (by rw [hpar]; simp) (((hs.2.1 h).1 hmem).2 c hc)
  · have hacc : s.Accepts c := ⟨hk, hp⟩
    have hnl := not_listed_of_accepts hs hacc
    rw [AddCommit_of_accepts s c source hacc]
    refine ⟨rfl, ?_, ?_, ?_⟩
    · intro id
      simp only [Insert_heads hs hacc, List.mem_append, List.mem_filter, List.mem_singleton,
        decide_eq_true_eq]
      constructor
      · rintro (h | rfl)
        · exact Or.inl h
        · exact Or.inr ⟨rfl, hnl⟩
      · rintro (h | ⟨rfl, _⟩)
        · exact Or.inl h
        · exact Or.inr rfl
    · intro h hh hpar
      simp [Insert_heads hs hacc, hh, hpar]
    · simp [Insert_heads hs hacc]

/-- C7 (witness): on a fresh page the initial commit is the only head; after the local commit
`A` on top of it the head set is `["A"]`. -/
theorem C7_head_set_maintenance_witness :
    (∀ p ∈ commitA.parent_ids, p ∈ (PageStorage.run []).ids) ∧
    (∀ d ∈ (PageStorage.run []).commits, d.id = commitA.id → d = commitA) ∧
    ((PageStorage.run []).AddCommit commitA ChangeSource.LOCAL).2.heads = ["A"] :=
  ⟨by decide, by decide,
   (C7_head_set_maintenance [] commitA ChangeSource.LOCAL (by decide) (by decide)).2.2.1
    initialCommit.id rfl rfl⟩

/-- C8: a fresh page has no unsynced commits; after any sequence of operations a commit is
returned by `GetUnsyncedCommits` exactly when an `AddCommitFromLocal` of it took effect and
no `MarkCommitSynced` of its id came afterwards; and a commit whose `AddCommitFromSync`
took effect is never returned. -/
theorem C8_unsynced_bookkeeping (ops : List Op) :
    (PageStorage.run []).GetUnsyncedCommits = [] ∧
    (∀ c, c ∈ (PageStorage.run ops).GetUnsyncedCommits ↔
      ∃ pre post, ops = pre ++ Op.addLocal c :: post ∧ (PageStorage.run pre).Accepts c ∧
        Op.markSynced c.id ∉ post) ∧
    (∀ pre post c, ops = pre ++ Op.addSync c :: post → (PageStorage.run pre).Accepts c →
      c ∉ (PageStorage.run ops).GetUnsyncedCommits) := by
  have key : ∀ c, c ∈ (PageStorage.run ops).GetUnsyncedCommits ↔
      ∃ pre post, ops = pre ++ Op.addLocal c :: post ∧ (PageStorage.run pre).Accepts c ∧
        Op.markSynced c.id ∉ post := by
    intro c
    simp only [PageStorage.GetUnsyncedCommits, List.mem_filter, decide_eq_true_eq]
    constructor
    · rintro ⟨hc, hu⟩
      obtain ⟨pre, c0, post, h1, h2, h3, h4⟩ := (unsynced_iff ops c.id).1 hu
      have hc0 : c0 ∈ (PageStorage.run ops).commits := by
        rw [h1]
        exact mem_commits_after_insert pre post c0 _ ChangeSource.LOCAL (Or.inl ⟨rfl, rfl⟩) h3
      have : c0 = c := eq_of_mem_commits (Inv_run ops) hc0 hc h2
      subst this
      exact ⟨pre, post, h1, h3, h4⟩
    · rintro ⟨pre, post, h1, h3, h4⟩
      refine ⟨?_, (unsynced_iff ops c.id).2 ⟨pre, c, post, h1, rfl, h3, h4⟩⟩
      rw [h1]
      exact mem_commits_after_insert pre post c _ ChangeSource.LOCAL (Or.inl ⟨rfl, rfl⟩) h3
  refine ⟨by decide, key, ?_⟩
  intro pre post c h1 hacc hmem
  obtain ⟨pre', post', h1', hacc', _⟩ := (key c).1 hmem
  have := insert_unique pre post pre' post' c c (Op.addSync c) (Op.addLocal c)
    ChangeSource.SYNC ChangeSource.LOCAL (Or.inr ⟨rfl, rfl⟩) (Or.inl ⟨rfl, rfl⟩) hacc hacc'
    rfl (h1.symm.trans h1')
  exact absurd this.2 (by simp)

/-- C8 (witness): after the local commit `A` on a fresh page `A` is unsynced; once
`MarkCommitSynced("A")` has been called it is not. -/
theorem C8_unsynced_bookkeeping_witness :
    commitA ∈ (PageStorage.run [Op.addLocal commitA]).GetUnsyncedCommits ∧
    commitA ∉ (PageStorage.run [Op.addLocal commitA, Op.markSynced "A"]).GetUnsyncedCommits :=
  ⟨((C8_unsynced_bookkeeping [Op.addLocal commitA]).2.1 commitA).2
      ⟨[], [], rfl, by decide, by simp⟩,
   fun h => by
    obtain ⟨pre, post, h1, _, h3⟩ :=
      ((C8_unsynced_bookkeeping [Op.addLocal commitA, Op.markSynced "A"]).2.1 commitA).1 h
    rcases pre with _ | ⟨x, pre⟩
    · simp only [List.nil_append, List.cons.injEq, true_and] at h1
      subst h1
      exact h3 (by simp [commitA])
    · rcases pre with _ | ⟨y, pre⟩
      · simp at h1
      · simp at h1⟩

/-- C9: when the insertion of a commit `c` takes effect (by `AddCommitFromLocal`, which a
journal `Commit` goes through, with provenance `LOCAL`, or by `AddCommitFromSync` with
provenance `SYNC`), then in the whole history, whatever follows, a watcher receives exactly
one `OnNewCommit` for the id of `c`, carrying that provenance, if it is registered at that
moment, and none otherwise; the call advances a registered `FakeCommitWatcher` by one
`OnNewCommit` and leaves the others as they are; and a watcher is registered at that moment
exactly when it was added before and not removed since. -/
theorem C9_watcher_fan_out (pre post : List Op) (c : Commit) (op : Op) (source : ChangeSource)
    (hop : (op = Op.addLocal c ∧ source = ChangeSource.LOCAL) ∨
      (op = Op.addSync c ∧ source = ChangeSource.SYNC))
    (hacc : (PageStorage.run pre).Accepts c) (w : WatcherId) :
    ((PageStorage.run (pre ++ op :: post)).delivered.filter
        (fun n => decide (n.watcher = w ∧ n.commit_id = c.id))
      = if w ∈ (PageStorage.run pre).watchers then [⟨w, c.id, source⟩] else []) ∧
    (FakeCommitWatcher.after w (PageStorage.run (pre ++ [op])).delivered
      = if w ∈ (PageStorage.run pre).watchers then
          (FakeCommitWatcher.after w (PageStorage.run pre).delivered).OnNewCommit c.id source
        else FakeCommitWatcher.after w (PageStorage.run pre).delivered) ∧
    (w ∈ (PageStorage.run pre).watchers ↔
      ∃ p q, pre = p ++ Op.addWatcher w :: q ∧ Op.removeWatcher w ∉ q) := by
  have hs := Inv_run pre
  have hstep := step_insert (PageStorage.run pre) c op source hop hacc
  refine ⟨?_, ?_, watchers_iff pre w⟩
  · rw [run_append, List.foldl_cons, hstep,
      foldl_delivered_filter post w c.id _ (by rw [Insert_ids]; simp)]
    have hold : (PageStorage.run pre).delivered.filter
        (fun n => decide (n.watcher = w ∧ n.commit_id = c.id)) = [] := by
      rw [List.filter_eq_nil_iff]
      intro n hn
      simp only [decide_eq_true_eq, not_and]
      intro _ hc
      exact hacc.1 (hc ▸ hs.2.2.2.2.2.1 n hn)
    simp only [PageStorage.Insert, List.filter_append, hold, List.nil_append]
    exact filter_fanout _ hs.2.2.2.2.1 w c.id source
  · rw [run_snoc, hstep]
    simp only [FakeCommitWatcher.after, PageStorage.Insert, List.filter_append,
      List.foldl_append, filter_fanout_watcher _ hs.2.2.2.2.1 w c.id source]
    split_ifs <;> rfl

/-- C9 (witness): watcher `1` is registered, `A` is committed, watcher `2` is registered, `B`
is committed, watcher `2` is removed and `C` arrives from sync: over the whole history
watcher `2` has received exactly one call for `B`, with provenance `LOCAL`. -/
theorem C9_watcher_fan_out_witness :
    ((Op.addLocal commitB = Op.addLocal commitB ∧ ChangeSource.LOCAL = ChangeSource.LOCAL) ∨
      (Op.addLocal commitB = Op.addSync commitB ∧ ChangeSource.LOCAL = ChangeSource.SYNC)) ∧
    (PageStorage.run [Op.addWatcher 1, Op.addLocal commitA, Op.addWatcher 2]).Accepts commitB ∧
    (PageStorage.run ([Op.addWatcher 1, Op.addLocal commitA, Op.addWatcher 2]
        ++ Op.addLocal commitB :: [Op.removeWatcher 2, Op.addSync commitC])).delivered.filter
        (fun n => decide (n.watcher = 2 ∧ n.commit_id = commitB.id))
      = [⟨2, "B", ChangeSource.LOCAL⟩] :=
  ⟨Or.inl ⟨rfl, rfl⟩, by decide,
   (C9_watcher_fan_out [Op.addWatcher 1, Op.addLocal commitA, Op.addWatcher 2]
      [Op.removeWatcher 2, Op.addSync commitC] commitB (Op.addLocal commitB) ChangeSource.LOCAL
      (Or.inl ⟨rfl, rfl⟩) (by decide) 2).1.trans (if_pos (by decide))⟩

/-- The scenario of the unit test `CommitWatchers`: the first watcher ends with three calls,
the last one for `C` from sync; the second watcher, removed before `C`, with one call, for
`B`. -/
theorem CommitWatchers_scenario :
    FakeCommitWatcher.after 1 (PageStorage.run [Op.addWatcher 1, Op.addLocal commitA,
        Op.addWatcher 2, Op.addLocal commitB, Op.removeWatcher 2, Op.addSync commitC]).delivered
      = ⟨3, "C", ChangeSource.SYNC⟩ ∧
    FakeCommitWatcher.after 2 (PageStorage.run [Op.addWatcher 1, Op.addLocal commitA,
        Op.addWatcher 2, Op.addLocal commitB, Op.removeWatcher 2, Op.addSync commitC]).delivered
      = ⟨1, "B", ChangeSource.LOCAL⟩ := by
  decide

/-! Empty trees, precondition checks and the stack invariant -/

/-- C11: for every tree that holds no entry, with enough fuel the constructor returns an
iterator whose stack is empty, so it is `Done` at once, and whose current entry is still
the default-constructed one: the `Next` call of the constructor has read no entry. -/
theorem C11_empty_tree_done (root : TreeNode) (extra : Nat) (h : root.allEntries = []) :
    BTreeIterator.new (root.fuelBound + extra) (some root) = Run.ok ⟨[], default⟩ ∧
    (∀ it, BTreeIterator.new (root.fuelBound + extra) (some root) = Run.ok it →
      it.Done = true ∧ it.current_entry_ = default) := by
  have hnew : BTreeIterator.new (root.fuelBound + extra) (some root) = Run.ok ⟨[], default⟩ := by
    rcases new_eq root _ (Nat.le_add_right _ extra) with ⟨_, hn⟩ | ⟨it, _, _, _, _, hy⟩
    · exact hn
    · have hlen := yieldOrder_length root
      rw [hy, TreeNode.entryCount, h] at hlen
      simp at hlen
  refine ⟨hnew, ?_⟩
  intro it hit
  rw [hnew] at hit
  cases hit
  exact ⟨rfl, rfl⟩

/-- C11 (witness): the empty root tree of the initial commit holds no entry, and the iterator
built on it is `Done` with an empty stack and the default current entry. -/
theorem C11_empty_tree_done_witness :
    emptyRoot.allEntries = [] ∧
    BTreeIterator.new (emptyRoot.fuelBound + 0) (some emptyRoot) = Run.ok ⟨[], default⟩ :=
  ⟨rfl, (C11_empty_tree_done emptyRoot 0 rfl).1⟩

theorem GetEntry_eq_none_iff (t : TreeNode) (i : Int) :
    t.GetEntry i = none ↔ ¬ (0 ≤ i ∧ i < t.GetKeyCount) := by
  constructor
  · intro h hr
    obtain ⟨x, _, hx⟩ := GetEntry_of_lt t i hr.1 hr.2
    rw [hx] at h
    cases h
  · intro h
    unfold TreeNode.GetEntry
    rw [if_neg h]

theorem GetChild_eq_none_iff (t : TreeNode) (i : Int) :
    t.GetChild i = none ↔ ¬ (0 ≤ i ∧ i ≤ t.GetKeyCount) := by
  constructor
  · intro h hr
    rcases GetChild_of_lt t i hr.1 (by omega) with ⟨c, _, hc⟩ | ⟨_, hc⟩ <;>
      · rw [hc] at h
        cases h
  · intro h
    unfold TreeNode.GetChild
    rw [if_neg h]

theorem InitLoop_mem (fuel : Nat) :
    ∀ (node : Option TreeNode) (stack s : List Position) (p : Position), p ∈ stack →
      BTreeIterator.InitLoop fuel node stack = Run.ok s → p ∈ s := by
  induction fuel with
  | zero =>
    intro node stack s p _ h
    simp [BTreeIterator.InitLoop] at h
  | succ f ih =>
    intro node stack s p hp h
    cases node with
    | none =>
      simp only [BTreeIterator.InitLoop] at h
      cases h
      exact hp
    | some t =>
      simp only [BTreeIterator.InitLoop] at h
      split at h
      · cases h
      · split_ifs at h
        · exact ih _ _ s p (List.mem_cons_of_mem _ hp) h
        · cases h
          exact List.mem_cons_of_mem _ hp

theorem InitLoop_safe (fuel : Nat) :
    ∀ (node : Option TreeNode) (stack : List Position), (∀ p ∈ stack, p.valid) →
      BTreeIterator.InitLoop fuel node stack ≠ Run.dcheck_failed ∧
      ∀ s, BTreeIterator.InitLoop fuel node stack = Run.ok s →
        (∀ p ∈ s, p.valid) ∧ (node ≠ none → s ≠ []) := by
  induction fuel with
  | zero =>
    intro node stack _
    simp [BTreeIterator.InitLoop]
  | succ f ih =>
    intro node stack hv
    cases node with
    | none =>
      simp only [BTreeIterator.InitLoop]
      refine ⟨by simp, ?_⟩
      intro s hs
      cases hs
      exact ⟨hv, fun h => absurd rfl h⟩
    | some t =>
      have hv' : ∀ p ∈ (⟨t, -1, 0⟩ : Position) :: stack, p.valid := by
        intro p hp
        rcases List.mem_cons.1 hp with rfl | hp
        · exact ⟨le_refl _, by simp⟩
        · exact hv p hp
      have h0 : (0 : Int) < t.GetKeyCount + 1 := by
        unfold TreeNode.GetKeyCount; omega
      rcases GetChild_of_lt t 0 (le_refl _) h0 with ⟨c, _, hg⟩ | ⟨_, hg⟩
      · simp only [BTreeIterator.InitLoop, hg, if_true]
        have := ih (some c) _ hv'
        refine ⟨this.1, fun s hs => ⟨(this.2 s hs).1, fun _ hnil => ?_⟩⟩
        subst hnil
        have hmem := InitLoop_mem f (some c) _ [] (⟨t, -1, 0⟩ : Position) (List.mem_cons_self _ _) hs
        simp at hmem
      · simp only [BTreeIterator.InitLoop, hg]
        refine ⟨by simp, ?_⟩
        intro s hs
        simp at hs
        subst hs
        exact ⟨hv', fun _ => by simp⟩

theorem NextLoop_safe (fuel : Nat) (stack : List Position) (cur : Entry) (dir : Bool)
    (hv : ∀ p ∈ stack, p.valid) :
    BTreeIterator.NextLoop fuel stack cur dir ≠ Run.dcheck_failed ∧
    ∀ it, BTreeIterator.NextLoop fuel stack cur dir = Run.ok it → ∀ p ∈ it.stack_, p.valid := by
  rcases NextLoop_correct fuel stack cur dir hv with h | ⟨_, h⟩ | ⟨it', h, _, hv', _⟩
  · rw [h]
    exact ⟨by simp, fun it hit => by cases hit⟩
  · rw [h]
    refine ⟨by simp, fun it hit => ?_⟩
    cases hit
    simp
  · rw [h]
    refine ⟨by simp, fun it hit => ?_⟩
    cases hit
    exact hv'

theorem Next_safe (fuel : Nat) (it : BTreeIterator) (hne : it.stack_ ≠ [])
    (hv : ∀ p ∈ it.stack_, p.valid) :
    it.Next fuel ≠ Run.dcheck_failed ∧
    ∀ it', it.Next fuel = Run.ok it' → ∀ p ∈ it'.stack_, p.valid := by
  have hnext : it.Next fuel = BTreeIterator.NextLoop fuel it.stack_ it.current_entry_ false := by
    unfold BTreeIterator.Next BTreeIterator.Done
    cases hs : it.stack_ with
    | nil => exact absurd hs hne
    | cons p s => simp
  rw [hnext]
  exact NextLoop_safe fuel it.stack_ it.current_entry_ false hv

theorem drain_safe (fuel : Nat) :
    ∀ (steps : Nat) (it : BTreeIterator), (∀ p ∈ it.stack_, p.valid) →
      BTreeIterator.drain steps fuel it ≠ Run.dcheck_failed := by
  intro steps
  induction steps with
  | zero => intro it _; simp [BTreeIterator.drain]
  | succ s ih =>
    intro it hv
    rw [BTreeIterator.drain]
    split_ifs with hd
    · simp
    · have hne : it.stack_ ≠ [] := by
        intro h
        apply hd
        simp [BTreeIterator.Done, h]
      have hsafe := Next_safe fuel it hne hv
      cases hn : it.Next fuel with
      | ok it' =>
        have := ih it' (hsafe.2 it' hn)
        cases hdr : BTreeIterator.drain s fuel it' with
        | ok rest => simp [hdr]
        | dcheck_failed => exact absurd hdr this
        | out_of_fuel => simp [hdr]
      | dcheck_failed => exact absurd hn hsafe.1
      | out_of_fuel => simp

theorem new_safe (fuel : Nat) (root : TreeNode) :
    BTreeIterator.new fuel (some root) ≠ Run.dcheck_failed ∧
    ∀ it, BTreeIterator.new fuel (some root) = Run.ok it → ∀ p ∈ it.stack_, p.valid := by
  have hinit := InitLoop_safe fuel (some root) [] (by simp)
  unfold BTreeIterator.new
  cases hi : BTreeIterator.InitLoop fuel (some root) [] with
  | ok stack =>
    have hs := hinit.2 stack hi
    exact Next_safe fuel ⟨stack, default⟩ (hs.2 (by simp)) hs.1
  | dcheck_failed => exact absurd hi hinit.1
  | out_of_fuel => simp

theorem traverse_safe (fuel : Nat) (root : TreeNode) :
    BTreeIterator.traverse fuel (some root) ≠ Run.dcheck_failed := by
  have hnew := new_safe fuel root
  unfold BTreeIterator.traverse
  cases hn : BTreeIterator.new fuel (some root) with
  | ok it => exact drain_safe fuel fuel it (hnew.2 it hn)
  | dcheck_failed => exact absurd hn hnew.1
  | out_of_fuel => simp

/-- C12: the index preconditions of `GetEntry` and `GetChild` are violated exactly when the
model returns `none`, which the iterator turns into `dcheck_failed`, as it does for a
failed `FTL_DCHECK(!Done())`. For every tree with a non-null root and every amount of fuel,
the stack the constructor hands to its `Next` call is not empty, and neither the
constructor nor the traversal up to `Done` ends in `dcheck_failed`; with enough fuel both
return normally. -/
theorem C12_checks_never_fail :
    (∀ (t : TreeNode) (i : Int), t.GetEntry i = none ↔ ¬ (0 ≤ i ∧ i < t.GetKeyCount)) ∧
    (∀ (t : TreeNode) (i : Int), t.GetChild i = none ↔ ¬ (0 ≤ i ∧ i ≤ t.GetKeyCount)) ∧
    (∀ (root : TreeNode) (fuel : Nat) (stack : List Position),
      BTreeIterator.InitLoop fuel (some root) [] = Run.ok stack → stack ≠ []) ∧
    (∀ (root : TreeNode) (fuel : Nat),
      BTreeIterator.new fuel (some root) ≠ Run.dcheck_failed ∧
      BTreeIterator.traverse fuel (some root) ≠ Run.dcheck_failed) ∧
    (∀ (root : TreeNode) (extra : Nat), ∃ it out,
      BTreeIterator.new (root.fuelBound + extra) (some root) = Run.ok it ∧
      BTreeIterator.traverse (root.fuelBound + extra) (some root) = Run.ok out) := by
  refine ⟨GetEntry_eq_none_iff, GetChild_eq_none_iff, ?_, ?_, ?_⟩
  · intro root fuel stack h
    exact ((InitLoop_safe fuel (some root) [] (by simp)).2 stack h).2 (by simp)
  · intro root fuel
    exact ⟨(new_safe fuel root).1, traverse_safe fuel root⟩
  · intro root extra
    have ht := traverse_eq root _ (Nat.le_add_right _ extra)
    rcases new_eq root _ (Nat.le_add_right _ extra) with ⟨_, hn⟩ | ⟨it, hn, _⟩
    · exact ⟨_, _, hn, ht⟩
    · exact ⟨it, _, hn, ht⟩

theorem stackPath_retop (root : TreeNode) (p p' : Position) (below : List Position)
    (hn : p'.node = p.node) (h : stackPath root (p :: below)) : stackPath root (p' :: below) := by
  cases below with
  | nil =>
    simp only [stackPath] at h ⊢
    rw [hn]; exact h
  | cons q below =>
    simp only [stackPath] at h ⊢
    rw [hn]; exact h

theorem stackPath_pop (root : TreeNode) (p : Position) (below : List Position)
    (h : stackPath root (p :: below)) : stackPath root below := by
  cases below with
  | nil => simp [stackPath]
  | cons q below => exact h.2

theorem NextLoop_path (root : TreeNode) (fuel : Nat) :
    ∀ (stack : List Position) (cur : Entry) (dir : Bool) (it : BTreeIterator),
      stackPath root stack → BTreeIterator.NextLoop fuel stack cur dir = Run.ok it →
      stackPath root it.stack_ ∧ it.topEntry := by
  induction fuel with
  | zero =>
    intro stack cur dir it _ h
    simp [BTreeIterator.NextLoop] at h
  | succ f ih =>
    intro stack cur dir it hp h
    cases stack with
    | nil =>
      simp only [BTreeIterator.NextLoop] at h
      cases h
      exact ⟨hp, by simp [BTreeIterator.topEntry]⟩
    | cons pos below =>
      cases dir with
      | true =>
        simp only [BTreeIterator.NextLoop] at h
        split_ifs at h with h1
        · split at h
          · next entry hget =>
            cases h
            refine ⟨stackPath_retop root pos _ below rfl hp, ?_⟩
            have hr : 0 ≤ pos.entry_index + 1 ∧ pos.entry_index + 1 < pos.node.GetKeyCount := by
              by_contra hc
              rw [(GetEntry_eq_none_iff _ _).2 hc] at hget
              cases hget
            exact ⟨hr.1, hr.2, hget⟩
          · cases h
        · exact ih below cur true it (stackPath_pop root pos below hp) h
      | false =>
        simp only [BTreeIterator.NextLoop] at h
        split_ifs at h with h1
        · split at h
          · cases h
          · next status next_child hget =>
            split_ifs at h with hs
            · split at h
              · next child =>
                subst hs
                refine ih _ cur false it ?_ h
                exact ⟨hget, stackPath_retop root pos _ below rfl hp⟩
              · cases h
            · exact ih (⟨pos.node, pos.entry_index, pos.child_index + 1⟩ :: below) cur true it
                (stackPath_retop root pos ⟨pos.node, pos.entry_index, pos.child_index + 1⟩
                  below rfl hp) h
        · exact ih below cur true it (stackPath_pop root pos below hp) h

theorem InitLoop_path (root : TreeNode) (fuel : Nat) :
    ∀ (t : TreeNode) (stack s : List Position),
      (∀ p : Position, p.node = t → stackPath root (p :: stack)) →
      BTreeIterator.InitLoop fuel (some t) stack = Run.ok s → stackPath root s := by
  induction fuel with
  | zero =>
    intro t stack s _ h
    simp [BTreeIterator.InitLoop] at h
  | succ f ih =>
    intro t stack s hp h
    have h0 : (0 : Int) < t.GetKeyCount + 1 := by
      unfold TreeNode.GetKeyCount; omega
    have htop : stackPath root ((⟨t, -1, 0⟩ : Position) :: stack) := hp _ rfl
    rcases GetChild_of_lt t 0 (le_refl _) h0 with ⟨c, _, hg⟩ | ⟨_, hg⟩
    · simp only [BTreeIterator.InitLoop, hg, if_true] at h
      refine ih c _ s ?_ h
      intro p hpn
      simp only [stackPath]
      exact ⟨by rw [hpn]; exact hg, htop⟩
    · simp only [BTreeIterator.InitLoop, hg] at h
      simp at h
      subst h
      exact htop

theorem Next_path (root : TreeNode) (fuel : Nat) (it it' : BTreeIterator)
    (hp : stackPath root it.stack_) (h : it.Next fuel = Run.ok it') :
    stackPath root it'.stack_ ∧ it'.topEntry := by
  unfold BTreeIterator.Next at h
  split_ifs at h
  exact NextLoop_path root fuel _ _ false it' hp h

/-- C13: the stack the constructor builds by its leftmost descent is a path from the root;
the iterator the constructor returns has a path from the root as its stack and, when it is
not `Done`, a top frame whose `entry_index` is a valid index with the current entry equal
to the node's entry there; every `Next` call on an iterator whose stack is a path from the
root returns an iterator with both properties; and with enough fuel the constructor does
return an iterator. -/
theorem C13_stack_invariant :
    (∀ (root : TreeNode) (fuel : Nat) (stack : List Position),
      BTreeIterator.InitLoop fuel (some root) [] = Run.ok stack → stackPath root stack) ∧
    (∀ (root : TreeNode) (fuel : Nat) (it : BTreeIterator),
      BTreeIterator.new fuel (some root) = Run.ok it →
      stackPath root it.stack_ ∧ it.topEntry) ∧
    (∀ (root : TreeNode) (fuel : Nat) (it it' : BTreeIterator),
      stackPath root it.stack_ → it.Next fuel = Run.ok it' →
      stackPath root it'.stack_ ∧ it'.topEntry) ∧
    (∀ (root : TreeNode) (extra : Nat), ∃ it,
      BTreeIterator.new (root.fuelBound + extra) (some root) = Run.ok it) := by
  have hinit : ∀ (root : TreeNode) (fuel : Nat) (stack : List Position),
      BTreeIterator.InitLoop fuel (some root) [] = Run.ok stack → stackPath root stack := by
    intro root fuel stack h
    exact InitLoop_path root fuel root [] stack (fun p hp => by simpa [stackPath] using hp) h
  refine ⟨hinit, ?_, Next_path, ?_⟩
  · intro root fuel it h
    unfold BTreeIterator.new at h
    cases hi : BTreeIterator.InitLoop fuel (some root) [] with
    | ok stack =>
      rw [hi] at h
      exact Next_path root fuel ⟨stack, default⟩ it (hinit root fuel stack hi) h
    | dcheck_failed => rw [hi] at h; cases h
    | out_of_fuel => rw [hi] at h; cases h
  · intro root extra
    rcases new_eq root _ (Nat.le_add_right _ extra) with ⟨_, hn⟩ | ⟨it, hn, _⟩
    · exact ⟨_, hn⟩
    · exact ⟨it, hn⟩

/-- C13 (witness): on `sparseTree` the stack after the leftmost descent is the root frame
alone, a path from the root; the `Next` call of the constructor moves to the node holding
`b`, and the stack is then the path root, child `1`, with entry index `0` and current entry
`b`. -/
theorem C13_stack_invariant_witness :
    stackPath sparseTree [⟨sparseTree, -1, 0⟩] ∧
    BTreeIterator.Next 10 ⟨[⟨sparseTree, -1, 0⟩], default⟩
      = Run.ok ⟨[⟨.mk none [(entryB, none)], 0, 0⟩, ⟨sparseTree, -1, 1⟩], entryB⟩ ∧
    stackPath sparseTree [⟨.mk none [(entryB, none)], 0, 0⟩, ⟨sparseTree, -1, 1⟩] ∧
    BTreeIterator.topEntry ⟨[⟨.mk none [(entryB, none)], 0, 0⟩, ⟨sparseTree, -1, 1⟩], entryB⟩ :=
  ⟨rfl, rfl,
   C13_stack_invariant.2.2.1 sparseTree 10 ⟨[⟨sparseTree, -1, 0⟩], default⟩
    ⟨[⟨.mk none [(entryB, none)], 0, 0⟩, ⟨sparseTree, -1, 1⟩], entryB⟩ rfl rfl⟩

/-- C12 (witness): on `sparseTree` neither the constructor nor the traversal fails a check
with ten units of fuel, and the traversal returns normally. -/
theorem C12_checks_never_fail_witness :
    BTreeIterator.new 10 (some sparseTree) ≠ Run.dcheck_failed ∧
    BTreeIterator.traverse 10 (some sparseTree) ≠ Run.dcheck_failed ∧
    BTreeIterator.traverse 10 (some sparseTree) = Run.ok [entryB, entryA] :=
  ⟨(C12_checks_never_fail.2.2.2.1 sparseTree 10).1,
   (C12_checks_never_fail.2.2.2.1 sparseTree 10).2, by decide⟩

end storage
